import Mathlib

/-!
# desegnacxo.js: the document-level paste handler

A shallow embedding of `src/desegnacxo.js`.  The script assigns one function to
`document.onpaste`; that function scans the clipboard items, keeps the file of
the last item whose type starts with "image", and starts a `FileReader` on it.
The reader's `onload` callback builds an `img` element and inserts it before
the first element of class "navigation".

Modelling conventions
* JavaScript strings are Lean strings; `indexOf` follows the ECMAScript
  `StringIndexOf` operation (ascending search for the first occurrence).
* The DOM tree is a forest of `Node`s, the children of the `Document` node.
  An element reference is the `Path` of child indices leading to it.
* The mutable browser state touched by the script is a `World`: the document,
  the console log and the `FileReader` objects created so far.
* The asynchronous read is a separate step `completeRead`, taken by the
  environment, which supplies the outcome of reading the blob.
-/

namespace Desegnacxo

/-! ## Strings -/

/-- Search loop of ECMAScript `StringIndexOf`: the smallest index `i + k`, `k ≥ 0`, at
which `search` occurs in the remaining input, or `-1` when there is none. -/
def indexOfFrom (search : List Char) : List Char → Nat → Int
  | [], i => if search.isPrefixOf [] then (i : Int) else -1
  | c :: cs, i => if search.isPrefixOf (c :: cs) then (i : Int) else indexOfFrom search cs (i + 1)

/-- The call `s.indexOf(search)` with the default start position `0`. -/
def indexOf (s search : String) : Int :=
  indexOfFrom search.toList s.toList 0

/-! ## Clipboard data -/

/-- A file-like binary object (`File`/`Blob`): its media type and its bytes. -/
structure Blob where
  type : String
  bytes : List Nat
  deriving DecidableEq, Repr

/-- One `DataTransferItem`: its `type` string and the value its `getAsFile()` method
returns (`none` is JavaScript `null`, returned for items that are not files). -/
structure DataTransferItem where
  type : String
  getAsFile : Option Blob
  deriving DecidableEq, Repr

/-- The `DataTransfer` object: only its ordered `items` list is used. -/
structure DataTransfer where
  items : List DataTransferItem
  deriving DecidableEq, Repr

/-- The paste event handed to `document.onpaste`. -/
structure ClipboardEvent where
  clipboardData : DataTransfer
  deriving DecidableEq, Repr

/-! ## The document tree -/

/-- A DOM node.  An element carries its tag name, its class list, its `src` attribute
(if set) and its child nodes; every other node kind is represented by `text`. -/
inductive Node where
  | element (tag : String) (classes : List String) (src : Option String) (children : List Node)
  | text (data : String)
  deriving Repr

/-- A reference to a node: the child indices leading to it from the `Document` node. -/
abbrev Path := List Nat

/-- The data of a node without its children. -/
inductive Label where
  | element (tag : String) (classes : List String) (src : Option String)
  | text (data : String)
  deriving DecidableEq, Repr

/-- The label of a node. -/
def Node.label : Node → Label
  | .element tag classes src _ => .element tag classes src
  | .text data => .text data

mutual
/-- The elements of class `cls` in the subtree of a node, in tree order (the node itself
first, then its descendants), as paths relative to the node. -/
def Node.byClass (cls : String) : Node → List Path
  | .text _ => []
  | .element _ classes _ children =>
      (if classes.contains cls then [[]] else []) ++ byClassFrom cls 0 children
/-- The elements of class `cls` below a list of sibling nodes whose first member has
child index `k`, in tree order. -/
def byClassFrom (cls : String) (k : Nat) : List Node → List Path
  | [] => []
  | n :: ns => (Node.byClass cls n).map (fun p => k :: p) ++ byClassFrom cls (k + 1) ns
end

/-- The call `document.getElementsByClassName(cls)`: every element of the document that has
the class `cls`, in tree order. -/
def getElementsByClassName (doc : List Node) (cls : String) : List Path :=
  byClassFrom cls 0 doc

/-- The getter `node.parentElement`: the parent when it is an element, `none` (JavaScript
`null`) for a child of the `Document` node, whose parent is not an element. -/
def parentElement : Path → Option Path
  | [] => none
  | [_] => none
  | i :: j :: p => some ((i :: j :: p).dropLast)

/-- The child list of the node at a path (of the `Document` node for the empty path);
`none` when the path does not lead to an element. -/
def childrenAt : List Node → Path → Option (List Node)
  | nodes, [] => some nodes
  | nodes, i :: p =>
    match nodes[i]? with
    | some (.element _ _ _ children) => childrenAt children p
    | _ => none

/-- The node at a path, if there is one. -/
def nodeAt : List Node → Path → Option Node
  | _, [] => none
  | nodes, [i] => nodes[i]?
  | nodes, i :: j :: p =>
    match nodes[i]? with
    | some (.element _ _ _ children) => nodeAt children (j :: p)
    | _ => none

/-- Replace the child list of the node at a path by `f` of it; `none` when the path does not
lead to an element or `f` fails. -/
def updateChildren (f : List Node → Option (List Node)) : List Node → Path → Option (List Node)
  | nodes, [] => f nodes
  | nodes, i :: p =>
    match nodes[i]? with
    | some (.element tag classes src children) =>
      (updateChildren f children p).map
        (fun children' => nodes.set i (.element tag classes src children'))
    | _ => none

/-- Put `node` into a child list directly before the child of index `i`; `none` when there
is no such child. -/
def spliceBefore (children : List Node) (i : Nat) (node : Node) : Option (List Node) :=
  if i < children.length then some (children.take i ++ node :: children.drop i) else none

/-- The call `parent.insertBefore(node, child)` for a fresh, parentless `node`: the new
document, or `none` (a `NotFoundError`) when `child` is not a child of `parent`. -/
def insertBefore (doc : List Node) (parent : Path) (node : Node) (child : Path) :
    Option (List Node) :=
  match child.getLast? with
  | none => none
  | some i =>
    if child.dropLast = parent then
      updateChildren (fun children => spliceBefore children i node) doc parent
    else none

/-- The call `document.createElement(tag)`: a fresh element, not yet in the document. -/
def createElement (tag : String) : Node :=
  .element tag [] none []

/-- The assignment `node.src = value`. -/
def Node.setSrc : Node → String → Node
  | .element tag classes _ children, value => .element tag classes (some value) children
  | .text data, _ => .text data

mutual
/-- The number of nodes in the subtree of a node whose label satisfies `pred`. -/
def Node.count (pred : Label → Bool) : Node → Nat
  | .text data => if pred (.text data) then 1 else 0
  | .element tag classes src children =>
      (if pred (.element tag classes src) then 1 else 0) + countList pred children
/-- The number of nodes below a list of siblings whose label satisfies `pred`. -/
def countList (pred : Label → Bool) : List Node → Nat
  | [] => 0
  | n :: ns => Node.count pred n + countList pred ns
end

/-- Whether a label is that of an `img` element. -/
def Label.isImg : Label → Bool
  | .element tag _ _ => tag == "img"
  | .text _ => false

/-! ## Browser state -/

/-- The function values the script creates: the one function expression assigned to
`reader.onload` (source lines 17 to 23). -/
inductive Callback where
  | pasteOnload
  deriving DecidableEq, Repr

/-- A `FileReader` object: its two event-handler properties and the blob of the read in
flight, if any. -/
structure FileReader where
  onload : Option Callback
  onerror : Option Callback
  reading : Option Blob
  deriving DecidableEq, Repr

/-- The state the script reads and writes. -/
structure World where
  document : List Node
  console : List Node
  readers : List FileReader

/-- The exceptions the modelled calls can raise. -/
inductive JSError where
  | typeError
  | notFoundError
  deriving DecidableEq, Repr

/-- The result of running a function: the state it leaves and the exception it threw. -/
structure Completion where
  world : World
  thrown : Option JSError

/-- The target of a progress event, the reader: its `result` attribute (`none` is `null`). -/
structure EventTarget where
  result : Option String
  deriving DecidableEq, Repr

/-- The event passed to the reader callbacks. -/
structure ProgressEvent where
  target : EventTarget
  deriving DecidableEq, Repr

/-- How the environment ends a read: with a data URL (a `load` event) or with a failure
(an `error` event). -/
inductive ReadOutcome where
  | success (dataURL : String)
  | failure
  deriving DecidableEq, Repr

/-! ## The script -/

/-- Source lines 6 to 11: the loop over `items`, returning the final value of `blob`. -/
def scanItems (items : List DataTransferItem) : Option Blob :=
  items.foldl
    (fun blob item => if indexOf item.type "image" = 0 then item.getAsFile else blob)
    none

/-- Source lines 3 to 25: the function assigned to `document.onpaste`. -/
def onpaste (w : World) (event : ClipboardEvent) : World :=
  let items := event.clipboardData.items
  match scanItems items with
  | none => w
  | some blob =>
    let reader : FileReader := { onload := none, onerror := none, reading := none }
    let reader := { reader with onload := some Callback.pasteOnload }
    let reader := { reader with reading := some blob }
    { w with readers := w.readers ++ [reader] }

/-- Source lines 17 to 23: the function assigned to `reader.onload`.  A `null` result is
converted to the string "null" by the `src` setter. -/
def onload (w : World) (event : ProgressEvent) : Completion :=
  let img := createElement "img"
  let img := img.setSrc (event.target.result.getD "null")
  let w := { w with console := w.console ++ [img] }
  match (getElementsByClassName w.document "navigation")[0]? with
  | none => { world := w, thrown := some JSError.typeError }
  | some navigation =>
    match parentElement navigation with
    | none => { world := w, thrown := some JSError.typeError }
    | some parent =>
      match insertBefore w.document parent img navigation with
      | none => { world := w, thrown := some JSError.notFoundError }
      | some doc => { world := { w with document := doc }, thrown := none }

/-! ## The environment -/

/-- Fire an event at a reader: run the handler registered for it, if any. -/
def dispatch (w : World) (handler : Option Callback) (event : ProgressEvent) : Completion :=
  match handler with
  | none => { world := w, thrown := none }
  | some Callback.pasteOnload => onload w event

/-- The environment finishes the read of reader number `i`; `read` is the outcome of
reading a blob.  A reader that is not reading is left alone.  On success the `load` event
is fired with the data URL as the reader's result, on failure the `error` event. -/
def completeRead (read : Blob → ReadOutcome) (w : World) (i : Nat) : Completion :=
  match w.readers[i]? with
  | none => { world := w, thrown := none }
  | some reader =>
    match reader.reading with
    | none => { world := w, thrown := none }
    | some blob =>
      let w := { w with readers := w.readers.set i { reader with reading := none } }
      match read blob with
      | .success dataURL => dispatch w reader.onload { target := { result := some dataURL } }
      | .failure => dispatch w reader.onerror { target := { result := none } }

/-- A run of the event loop: the listed reads are finished one after the other, and an
exception thrown by a callback is reported without stopping the loop. -/
def runReads : World → List (Nat × (Blob → ReadOutcome)) → World
  | w, [] => w
  | w, (i, read) :: rest => runReads (completeRead read w i).world rest

/-- The number of reads in flight. -/
def pendingReads (readers : List FileReader) : Nat :=
  (readers.filter (fun r => r.reading.isSome)).length

/-! ## Notions of the specification -/

/-- The specification's test on a media type: the text "image" is a prefix of it. -/
def startsWithImage (t : String) : Prop :=
  "image".toList <+: t.toList

instance (t : String) : Decidable (startsWithImage t) := by
  unfold startsWithImage; infer_instance

/-- The image-type entries of an item list, in iteration order. -/
def imageEntries (items : List DataTransferItem) : List DataTransferItem :=
  items.filter (fun item => decide (startsWithImage item.type))

/-- The reader object the handler has built when it calls `readAsDataURL(blob)`. -/
def readerFor (blob : Blob) : FileReader :=
  { onload := some Callback.pasteOnload, onerror := none, reading := some blob }

/-- The image element the `onload` callback builds from a data URL. -/
def imgOf (dataURL : String) : Node :=
  .element "img" [] (some dataURL) []

/-- Tree order on node references: whether `p` comes strictly before `q` in a preorder walk
of the document (an ancestor comes before its descendants, an earlier sibling's subtree
before a later sibling's). -/
def precedes : Path → Path → Bool
  | [], [] => false
  | [], _ :: _ => true
  | _ :: _, [] => false
  | i :: p, j :: q => i < j || (i == j && precedes p q)

/-- The document has an insertion anchor: a first element of class "navigation" that has a
parent element. -/
def hasAnchor (doc : List Node) : Prop :=
  ∃ navigation parent,
    (getElementsByClassName doc "navigation")[0]? = some navigation ∧
      parentElement navigation = some parent

/-! ## Sample inputs -/

/-- A PNG file: the first four bytes of the PNG signature. -/
def pngFile : Blob :=
  { type := "image/png", bytes := [137, 80, 78, 71] }

/-- A GIF file: the three bytes "GIF". -/
def gifFile : Blob :=
  { type := "image/gif", bytes := [71, 73, 70] }

/-- The clipboard of the specification's example: a text entry, then a PNG image. -/
def examplePaste : ClipboardEvent :=
  { clipboardData := { items :=
      [{ type := "text/plain", getAsFile := none },
       { type := "image/png", getAsFile := some pngFile }] } }

/-- A clipboard with two image entries where the later one is not a file. -/
def nullLastPaste : ClipboardEvent :=
  { clipboardData := { items :=
      [{ type := "image/png", getAsFile := some pngFile },
       { type := "image/svg+xml", getAsFile := none }] } }

/-- The page of the specification's example: a `nav` of class "navigation" inside `body`. -/
def examplePage : List Node :=
  [.element "html" [] none
    [.element "head" [] none [],
     .element "body" [] none
       [.text "intro", .element "nav" ["navigation"] none [.text "menu"]]]]

/-- A page without any element of class "navigation". -/
def plainPage : List Node :=
  [.element "html" [] none [.element "head" [] none [], .element "body" [] none []]]

/-- A page whose root element carries the class "navigation", with a second such element
further down. -/
def rootMarkedPage : List Node :=
  [.element "html" ["navigation"] none
    [.element "head" [] none [],
     .element "body" [] none [.element "nav" ["navigation"] none []]]]

/-- A page whose only element of class "navigation" is the root element. -/
def rootOnlyPage : List Node :=
  [.element "html" ["navigation"] none [.element "body" [] none []]]

/-- A state with the given document, an empty console and no readers. -/
def freshWorld (doc : List Node) : World :=
  { document := doc, console := [], readers := [] }

/-- A state with one read in flight, left by an earlier paste of the example clipboard. -/
def busyWorld : World :=
  onpaste (freshWorld examplePage) examplePaste

/-- An environment in which every read succeeds with the data URL of the PNG sample. -/
def pngRead : Blob → ReadOutcome :=
  fun _ => ReadOutcome.success "data:image/png;base64,iVBORw=="

/-- An environment in which every read fails. -/
def failingRead : Blob → ReadOutcome :=
  fun _ => ReadOutcome.failure

/-! ## Strings: `indexOf` against the prefix test -/

theorem indexOfFrom_ge (search : List Char) (s : List Char) (i : Nat) :
    indexOfFrom search s i = -1 ∨ (i : Int) ≤ indexOfFrom search s i := by
  induction s generalizing i with
  | nil => unfold indexOfFrom; split <;> simp
  | cons c cs ih =>
    unfold indexOfFrom
    split
    · right; exact le_refl _
    · rcases ih (i + 1) with h | h
      · left; exact h
      · right; push_cast at h; omega

theorem indexOfFrom_eq_start (search s : List Char) (i : Nat) :
    indexOfFrom search s i = (i : Int) ↔ search <+: s := by
  cases s with
  | nil =>
    unfold indexOfFrom
    by_cases h : search.isPrefixOf [] = true
    · simp only [h, if_true, true_iff]; exact List.isPrefixOf_iff_prefix.mp h
    · rw [if_neg h]
      constructor
      · intro h'; omega
      · intro h'; exact absurd (List.isPrefixOf_iff_prefix.mpr h') h
  | cons c cs =>
    unfold indexOfFrom
    by_cases h : search.isPrefixOf (c :: cs) = true
    · simp only [h, if_true, true_iff]; exact List.isPrefixOf_iff_prefix.mp h
    · rw [if_neg h]
      constructor
      · intro h'
        rcases indexOfFrom_ge search cs (i + 1) with h2 | h2
        · rw [h2] at h'; omega
        · rw [h'] at h2; push_cast at h2; omega
      · intro h'; exact absurd (List.isPrefixOf_iff_prefix.mpr h') h

theorem indexOf_image_iff (t : String) : indexOf t "image" = 0 ↔ startsWithImage t := by
  unfold indexOf startsWithImage
  exact indexOfFrom_eq_start "image".toList t.toList 0

/-! ## The scan loop -/

/-- The loop started with any candidate: the result is the `getAsFile` value of the last
image-type entry, or the starting candidate when there is no such entry. -/
theorem foldl_scan (items : List DataTransferItem) (init : Option Blob) :
    items.foldl
        (fun blob item => if indexOf item.type "image" = 0 then item.getAsFile else blob) init
      = match (imageEntries items).getLast? with
        | some entry => entry.getAsFile
        | none => init := by
  induction items generalizing init with
  | nil => simp [imageEntries]
  | cons x xs ih =>
    rw [List.foldl_cons, ih]
    by_cases hx : startsWithImage x.type
    · have h0 : indexOf x.type "image" = 0 := (indexOf_image_iff _).mpr hx
      have hf : imageEntries (x :: xs) = x :: imageEntries xs := by
        simp [imageEntries, hx]
      rw [hf, if_pos h0]
      cases hl : (imageEntries xs).getLast? with
      | none =>
        have : imageEntries xs = [] := List.getLast?_eq_none_iff.mp hl
        simp [this]
      | some e =>
        have hne : imageEntries xs ≠ [] := by
          intro hnil; rw [hnil] at hl; simp at hl
        obtain ⟨y, ys, hys⟩ := List.exists_cons_of_ne_nil hne
        rw [hys] at hl ⊢
        rw [List.getLast?_cons_cons, hl]
    · have h0 : ¬ indexOf x.type "image" = 0 := fun h => hx ((indexOf_image_iff _).mp h)
      have hf : imageEntries (x :: xs) = imageEntries xs := by
        simp [imageEntries, hx]
      rw [hf, if_neg h0]

theorem scanItems_eq (items : List DataTransferItem) :
    scanItems items = (imageEntries items).getLast?.bind (fun entry => entry.getAsFile) := by
  unfold scanItems
  rw [foldl_scan]
  cases (imageEntries items).getLast? <;> rfl

theorem onpaste_eq (w : World) (event : ClipboardEvent) :
    onpaste w event =
      match scanItems event.clipboardData.items with
      | none => w
      | some blob => { w with readers := w.readers ++ [readerFor blob] } := by
  cases h : scanItems event.clipboardData.items <;> simp [onpaste, h, readerFor]

/-! ## The document tree: searching by class -/

theorem byClassFrom_append (cls : String) (xs ys : List Node) (k : Nat) :
    byClassFrom cls k (xs ++ ys) = byClassFrom cls k xs ++ byClassFrom cls (k + xs.length) ys := by
  induction xs generalizing k with
  | nil => simp [byClassFrom]
  | cons x xs ih =>
    have hk : k + 1 + xs.length = k + (x :: xs).length := by
      simp only [List.length_cons]; omega
    show byClassFrom cls k (x :: (xs ++ ys)) = _
    simp only [byClassFrom]
    rw [ih, hk, List.append_assoc]

theorem byClassFrom_ne_nil (cls : String) (nodes : List Node) (k : Nat) :
    ∀ p ∈ byClassFrom cls k nodes, p ≠ [] := by
  induction nodes generalizing k with
  | nil => simp [byClassFrom]
  | cons x xs ih =>
    intro p hp
    simp only [byClassFrom, List.mem_append, List.mem_map] at hp
    rcases hp with ⟨q, _, rfl⟩ | hp
    · simp
    · exact ih (k + 1) p hp

theorem head_byClassFrom (cls : String) (nodes : List Node) (k j : Nat) (rest : Path)
    (h : (byClassFrom cls k nodes)[0]? = some (j :: rest)) :
    ∃ i n, j = k + i ∧ nodes[i]? = some n ∧ (Node.byClass cls n)[0]? = some rest ∧
      byClassFrom cls k (nodes.take i) = [] := by
  induction nodes generalizing k with
  | nil => simp [byClassFrom] at h
  | cons x xs ih =>
    cases hx : Node.byClass cls x with
    | nil =>
      simp only [byClassFrom, hx, List.map_nil, List.nil_append] at h
      obtain ⟨i, n, hj, hn, hr, ht⟩ := ih (k + 1) h
      refine ⟨i + 1, n, by omega, by simpa using hn, hr, ?_⟩
      simp [byClassFrom, hx, ht]
    | cons q qs =>
      simp only [byClassFrom, hx, List.map_cons, List.cons_append, List.getElem?_cons_zero,
        Option.some.injEq, List.cons.injEq] at h
      refine ⟨0, x, by omega, by simp, ?_, by simp [byClassFrom]⟩
      simp [hx, h.2]

theorem head_byClassFrom_intro (cls : String) (pre post : List Node) (n : Node) (k : Nat)
    (rest : Path) (hpre : byClassFrom cls k pre = [])
    (hn : (Node.byClass cls n)[0]? = some rest) :
    (byClassFrom cls k (pre ++ n :: post))[0]? = some ((k + pre.length) :: rest) := by
  rw [byClassFrom_append, hpre, List.nil_append]
  cases hq : Node.byClass cls n with
  | nil => simp [hq] at hn
  | cons q qs =>
    simp only [hq, List.getElem?_cons_zero, Option.some.injEq] at hn
    simp [byClassFrom, hq, hn]

theorem byClass_head_cons (cls : String) (n : Node) (j : Nat) (rest : Path)
    (h : (Node.byClass cls n)[0]? = some (j :: rest)) :
    ∃ tag classes src children, n = .element tag classes src children ∧
      classes.contains cls = false ∧ (byClassFrom cls 0 children)[0]? = some (j :: rest) := by
  cases n with
  | text data => simp [Node.byClass] at h
  | element tag classes src children =>
    refine ⟨tag, classes, src, children, rfl, ?_⟩
    cases hc : classes.contains cls with
    | true => simp only [Node.byClass, hc, if_true] at h; simp at h
    | false =>
      simp only [Node.byClass, hc, Bool.false_eq_true, if_false, List.nil_append] at h
      exact ⟨rfl, h⟩

theorem byClass_head_nil (cls : String) (n : Node)
    (h : (Node.byClass cls n)[0]? = some []) :
    ∃ tag classes src children, n = .element tag classes src children ∧
      classes.contains cls = true := by
  cases n with
  | text data => simp [Node.byClass] at h
  | element tag classes src children =>
    refine ⟨tag, classes, src, children, rfl, ?_⟩
    cases hc : classes.contains cls with
    | true => rfl
    | false =>
      simp only [Node.byClass, hc, Bool.false_eq_true, if_false, List.nil_append] at h
      cases hb : byClassFrom cls 0 children with
      | nil => simp [hb] at h
      | cons q qs =>
        have := byClassFrom_ne_nil cls children 0 q (by simp [hb])
        simp [hb] at h
        exact absurd h this

theorem byClassFrom_head_ge (cls : String) (nodes : List Node) (k : Nat) :
    ∀ p ∈ byClassFrom cls k nodes, ∃ j rest, p = j :: rest ∧ k ≤ j := by
  induction nodes generalizing k with
  | nil => simp [byClassFrom]
  | cons x xs ih =>
    intro p hp
    simp only [byClassFrom, List.mem_append, List.mem_map] at hp
    rcases hp with ⟨q, _, rfl⟩ | hp
    · exact ⟨k, q, rfl, le_refl _⟩
    · obtain ⟨j, rest, hj, hk⟩ := ih (k + 1) p hp
      exact ⟨j, rest, hj, by omega⟩

mutual
theorem byClass_pairwise (cls : String) :
    ∀ n : Node, (Node.byClass cls n).Pairwise (fun p q => precedes p q = true)
  | .text _ => by simp [Node.byClass]
  | .element _ classes _ children => by
    have hch := byClassFrom_pairwise cls children 0
    simp only [Node.byClass]
    rw [List.pairwise_append]
    refine ⟨by split <;> simp, hch, ?_⟩
    intro p hp q hq
    have hp' : p = [] := by
      split at hp <;> simp at hp
      exact hp
    obtain ⟨j, rest, hj, _⟩ := byClassFrom_head_ge cls children 0 q hq
    rw [hp', hj]; rfl
theorem byClassFrom_pairwise (cls : String) :
    ∀ (nodes : List Node) (k : Nat),
      (byClassFrom cls k nodes).Pairwise (fun p q => precedes p q = true)
  | [], _ => by simp [byClassFrom]
  | n :: ns, k => by
    have hn := byClass_pairwise cls n
    have hns := byClassFrom_pairwise cls ns (k + 1)
    simp only [byClassFrom]
    rw [List.pairwise_append]
    refine ⟨?_, hns, ?_⟩
    · rw [List.pairwise_map]
      exact hn.imp (fun h => by simp [precedes, h])
    · intro p hp q hq
      obtain ⟨p', _, rfl⟩ := List.mem_map.mp hp
      obtain ⟨j, rest, hj, hk⟩ := byClassFrom_head_ge cls ns (k + 1) q hq
      rw [hj]
      simp [precedes]
      left; omega
end

theorem byClassFrom_mem_of_getElem? (cls : String) (nodes : List Node) (k j : Nat) (n : Node)
    (p : Path) (hn : nodes[j]? = some n) (hp : p ∈ Node.byClass cls n) :
    (k + j) :: p ∈ byClassFrom cls k nodes := by
  induction nodes generalizing k j with
  | nil => simp at hn
  | cons x xs ih =>
    cases j with
    | zero =>
      simp only [List.getElem?_cons_zero, Option.some.injEq] at hn
      subst hn
      simp only [byClassFrom, List.mem_append, List.mem_map]
      left; exact ⟨p, hp, rfl⟩
    | succ j =>
      simp only [List.getElem?_cons_succ] at hn
      have := ih (k + 1) j hn
      simp only [byClassFrom, List.mem_append]
      right
      have e : k + (j + 1) = k + 1 + j := by omega
      rw [e]; exact this

/-- Every element of class `cls` is listed by the search. -/
theorem byClassFrom_complete (cls : String) :
    ∀ (q : Path) (nodes : List Node) (tag : String) (classes : List String)
      (src : Option String) (children : List Node),
      nodeAt nodes q = some (.element tag classes src children) →
      classes.contains cls = true → q ∈ byClassFrom cls 0 nodes := by
  intro q
  induction q with
  | nil => intro nodes tag classes src children h; simp [nodeAt] at h
  | cons j q' ih =>
    intro nodes tag classes src children h hc
    cases q' with
    | nil =>
      simp only [nodeAt] at h
      have := byClassFrom_mem_of_getElem? cls nodes 0 j _ [] h
        (by simp only [Node.byClass, hc, if_true]; simp)
      simpa using this
    | cons j2 q'' =>
      cases hj : nodes[j]? with
      | none => simp [nodeAt, hj] at h
      | some n =>
        cases n with
        | text data => simp [nodeAt, hj] at h
        | element t c s ch =>
          simp only [nodeAt, hj] at h
          have hin := ih ch tag classes src children h hc
          have := byClassFrom_mem_of_getElem? cls nodes 0 j _ (j2 :: q'') hj
            (by simp only [Node.byClass, List.mem_append]; right; exact hin)
          simpa using this

/-- The first path listed by the search comes before every other element of the class in
tree order. -/
theorem first_byClass_minimal (cls : String) (nodes : List Node) (first q : Path)
    (tag : String) (classes : List String) (src : Option String) (children : List Node)
    (hfirst : (byClassFrom cls 0 nodes)[0]? = some first)
    (hq : nodeAt nodes q = some (.element tag classes src children))
    (hc : classes.contains cls = true) :
    q = first ∨ precedes first q = true := by
  have hmem := byClassFrom_complete cls q nodes tag classes src children hq hc
  have hpw := byClassFrom_pairwise cls nodes 0
  cases hl : byClassFrom cls 0 nodes with
  | nil => rw [hl] at hmem; simp at hmem
  | cons p rest =>
    rw [hl] at hfirst hmem hpw
    simp only [List.getElem?_cons_zero, Option.some.injEq] at hfirst
    subst hfirst
    rcases List.mem_cons.mp hmem with h | h
    · left; exact h
    · right; exact (List.pairwise_cons.mp hpw).1 q h

/-! ## The document tree: inserting before the first match -/

theorem childrenAt_cons_element (nodes : List Node) (i : Nat) (p : Path) (tag : String)
    (classes : List String) (src : Option String) (children : List Node)
    (h : nodes[i]? = some (.element tag classes src children)) :
    childrenAt nodes (i :: p) = childrenAt children p := by
  simp [childrenAt, h]

theorem nodeAt_snoc (parent : Path) (i : Nat) (nodes : List Node) :
    nodeAt nodes (parent ++ [i]) = (childrenAt nodes parent).bind (fun ch => ch[i]?) := by
  induction parent generalizing nodes with
  | nil => simp [nodeAt, childrenAt]
  | cons j rest ih =>
    cases rest with
    | nil =>
      simp only [List.cons_append, List.nil_append, nodeAt, childrenAt]
      cases hj : nodes[j]? with
      | none => simp
      | some n => cases n <;> simp [childrenAt]
    | cons j2 rest2 =>
      have e1 : (j :: j2 :: rest2) ++ [i] = j :: j2 :: (rest2 ++ [i]) := rfl
      rw [e1]
      cases hj : nodes[j]? with
      | none => simp [nodeAt, childrenAt, hj]
      | some n =>
        cases n with
        | text data => simp [nodeAt, childrenAt, hj]
        | element tag classes src children =>
          rw [childrenAt_cons_element _ _ _ _ _ _ _ hj]
          have h1 : nodeAt nodes (j :: j2 :: (rest2 ++ [i]))
              = nodeAt children (j2 :: (rest2 ++ [i])) := by
            simp [nodeAt, hj]
          rw [h1]
          exact ih children

theorem insert_first (cls : String) (img : Node) (himg : Node.byClass cls img = []) :
    ∀ (parent : Path) (i : Nat) (nodes : List Node),
      (byClassFrom cls 0 nodes)[0]? = some (parent ++ [i]) →
      ∃ ch nodes', childrenAt nodes parent = some ch ∧ i < ch.length ∧
        updateChildren (fun c => spliceBefore c i img) nodes parent = some nodes' ∧
        childrenAt nodes' parent = some (ch.take i ++ img :: ch.drop i) ∧
        (byClassFrom cls 0 nodes')[0]? = some (parent ++ [i + 1]) ∧
        ∃ tag classes src children, ch[i]? = some (.element tag classes src children) ∧
          classes.contains cls = true := by
  intro parent
  induction parent with
  | nil =>
    intro i nodes h
    obtain ⟨i', n, hi, hn, hr, ht⟩ := head_byClassFrom cls nodes 0 i [] h
    have hi' : i' = i := by omega
    subst hi'
    have hlt : i' < nodes.length := by
      by_contra hge
      rw [List.getElem?_eq_none (by omega)] at hn
      exact absurd hn (by simp)
    have hdrop : nodes.drop i' = n :: nodes.drop (i' + 1) := by
      rw [List.drop_eq_getElem_cons hlt]
      congr 1
      rw [List.getElem?_eq_getElem hlt] at hn
      exact Option.some.inj hn
    refine ⟨nodes, nodes.take i' ++ img :: nodes.drop i', rfl, hlt, ?_, rfl, ?_, ?_⟩
    · simp [updateChildren, spliceBefore, hlt]
    · have hpre : byClassFrom cls 0 (nodes.take i' ++ [img]) = [] := by
        rw [byClassFrom_append, ht]
        simp [byClassFrom, himg]
      have := head_byClassFrom_intro cls (nodes.take i' ++ [img]) (nodes.drop (i' + 1)) n 0 []
        hpre hr
      rw [hdrop]
      simpa [List.length_take, Nat.min_eq_left (Nat.le_of_lt hlt)] using this
    · obtain ⟨tag, classes, src, children, hn', hc⟩ := byClass_head_nil cls n hr
      exact ⟨tag, classes, src, children, by rw [hn, hn'], hc⟩
  | cons j parent ih =>
    intro i nodes h
    obtain ⟨j', n, hj, hn, hr, ht⟩ := head_byClassFrom cls nodes 0 j (parent ++ [i]) h
    have hj' : j' = j := by omega
    subst hj'
    have hne : ∃ a rest, parent ++ [i] = a :: rest := by
      cases parent with
      | nil => exact ⟨i, [], rfl⟩
      | cons a rest => exact ⟨a, rest ++ [i], rfl⟩
    obtain ⟨a, rest, hpi⟩ := hne
    rw [hpi] at hr
    obtain ⟨tag, classes, src, children, hn', hc, hch⟩ := byClass_head_cons cls n a rest hr
    subst hn'
    rw [← hpi] at hch
    obtain ⟨ch, children', hca, hlt, hup, hca', hfirst, hanchor⟩ := ih i children hch
    have hjlt : j' < nodes.length := by
      by_contra hge
      rw [List.getElem?_eq_none (by omega)] at hn
      exact absurd hn (by simp)
    refine ⟨ch, nodes.set j' (.element tag classes src children'), ?_, hlt, ?_, ?_, ?_, hanchor⟩
    · rw [childrenAt_cons_element nodes j' parent tag classes src children hn, hca]
    · simp [updateChildren, hn, hup]
    · rw [childrenAt_cons_element _ j' parent tag classes src children' (by simp [hjlt]), hca']
    · have hset : nodes.set j' (.element tag classes src children')
          = nodes.take j' ++ .element tag classes src children' :: nodes.drop (j' + 1) := by
        rw [List.set_eq_take_append_cons_drop]; simp [hjlt]
      rw [hset]
      have hnew : (Node.byClass cls (.element tag classes src children'))[0]?
          = some (parent ++ [i + 1]) := by
        simp only [Node.byClass, hc, Bool.false_eq_true, if_false, List.nil_append]
        exact hfirst
      have := head_byClassFrom_intro cls (nodes.take j') (nodes.drop (j' + 1))
        (.element tag classes src children') 0 (parent ++ [i + 1]) ht hnew
      simpa [List.length_take, Nat.min_eq_left (Nat.le_of_lt hjlt)] using this

theorem map_label_set (nodes : List Node) (j : Nat) (tag : String) (classes : List String)
    (src : Option String) (children children' : List Node)
    (h : nodes[j]? = some (.element tag classes src children)) :
    (nodes.set j (.element tag classes src children')).map Node.label
      = nodes.map Node.label := by
  apply List.ext_getElem?
  intro k
  rw [List.getElem?_map, List.getElem?_map, List.getElem?_set]
  by_cases hk : j = k
  · subst hk
    rw [if_pos rfl, h]
    have hlt : j < nodes.length := by
      by_contra hge
      rw [List.getElem?_eq_none (by omega)] at h
      exact absurd h (by simp)
    simp [hlt, Node.label]
  · rw [if_neg hk]

theorem updateChildren_frame (f : List Node → Option (List Node)) :
    ∀ (parent : Path) (nodes nodes' : List Node),
      updateChildren f nodes parent = some nodes' →
      ∀ q : Path, ¬ parent <+: q →
        (childrenAt nodes' q).map (List.map Node.label)
          = (childrenAt nodes q).map (List.map Node.label) := by
  intro parent
  induction parent with
  | nil => intro nodes nodes' _ q hq; exact absurd (List.nil_prefix) hq
  | cons j parent ih =>
    intro nodes nodes' h q hq
    cases hj : nodes[j]? with
    | none => simp [updateChildren, hj] at h
    | some n =>
      cases n with
      | text data => simp [updateChildren, hj] at h
      | element tag classes src children =>
        simp only [updateChildren, hj, Option.map_eq_some'] at h
        obtain ⟨children', hup, hset⟩ := h
        subst hset
        have hjlt : j < nodes.length := by
          by_contra hge
          rw [List.getElem?_eq_none (by omega)] at hj
          exact absurd hj (by simp)
        cases q with
        | nil =>
          simp only [childrenAt, Option.map_some']
          rw [map_label_set nodes j tag classes src children children' hj]
        | cons k q' =>
          by_cases hk : k = j
          · subst hk
            rw [childrenAt_cons_element _ k q' tag classes src children' (by simp [hjlt]),
              childrenAt_cons_element _ k q' tag classes src children hj]
            apply ih children children' hup q'
            intro hpre
            exact hq (by simpa using hpre)
          · have hget : (nodes.set j (.element tag classes src children'))[k]? = nodes[k]? := by
              rw [List.getElem?_set]
              rw [if_neg (fun h => hk h.symm)]
            simp only [childrenAt, hget]

theorem countList_append (pred : Label → Bool) (xs ys : List Node) :
    countList pred (xs ++ ys) = countList pred xs + countList pred ys := by
  induction xs with
  | nil => simp [countList]
  | cons x xs ih =>
    show countList pred (x :: (xs ++ ys)) = _
    simp only [countList, ih]; omega

theorem updateChildren_count (f : List Node → Option (List Node)) (pred : Label → Bool)
    (d : Nat) (hf : ∀ ch ch', f ch = some ch' → countList pred ch' = countList pred ch + d) :
    ∀ (parent : Path) (nodes nodes' : List Node),
      updateChildren f nodes parent = some nodes' →
      countList pred nodes' = countList pred nodes + d := by
  intro parent
  induction parent with
  | nil => intro nodes nodes' h; exact hf nodes nodes' h
  | cons j parent ih =>
    intro nodes nodes' h
    cases hj : nodes[j]? with
    | none => simp [updateChildren, hj] at h
    | some n =>
      cases n with
      | text data => simp [updateChildren, hj] at h
      | element tag classes src children =>
        simp only [updateChildren, hj, Option.map_eq_some'] at h
        obtain ⟨children', hup, hset⟩ := h
        subst hset
        have hjlt : j < nodes.length := by
          by_contra hge
          rw [List.getElem?_eq_none (by omega)] at hj
          exact absurd hj (by simp)
        have hc := ih children children' hup
        have hold : nodes = nodes.take j ++ .element tag classes src children
            :: nodes.drop (j + 1) := by
          rw [List.getElem?_eq_getElem hjlt] at hj
          rw [← Option.some.inj hj, ← List.drop_eq_getElem_cons hjlt, List.take_append_drop]
        have hnew : nodes.set j (.element tag classes src children')
            = nodes.take j ++ .element tag classes src children' :: nodes.drop (j + 1) := by
          rw [List.set_eq_take_append_cons_drop]; simp [hjlt]
        rw [hnew]
        conv_rhs => rw [hold]
        simp only [countList_append, countList, Node.count, hc]
        omega

theorem spliceBefore_count (pred : Label → Bool) (i : Nat) (node : Node)
    (ch ch' : List Node) (h : spliceBefore ch i node = some ch') :
    countList pred ch' = countList pred ch + Node.count pred node := by
  unfold spliceBefore at h
  split at h
  · have h' := Option.some.inj h
    subst h'
    conv_rhs => rw [← List.take_append_drop i ch]
    simp only [countList_append, countList]
    omega
  · exact absurd h (by simp)

theorem parentElement_some (p parent : Path) (h : parentElement p = some parent) :
    ∃ i, p = parent ++ [i] ∧ parent ≠ [] := by
  match p, h with
  | i :: j :: rest, h =>
    simp only [parentElement, Option.some.injEq] at h
    subst h
    refine ⟨(i :: j :: rest).getLast (by simp), ?_, by simp [List.dropLast]⟩
    exact (List.dropLast_append_getLast (by simp)).symm

theorem parentElement_snoc (parent : Path) (k : Nat) (h : parent ≠ []) :
    parentElement (parent ++ [k]) = some parent := by
  match parent, h with
  | [a], _ => rfl
  | a :: b :: rest, _ =>
    show parentElement (a :: b :: (rest ++ [k])) = _
    simp only [parentElement, Option.some.injEq]
    have : a :: b :: (rest ++ [k]) = (a :: b :: rest) ++ [k] := rfl
    rw [this, List.dropLast_concat]

theorem insertBefore_snoc (doc : List Node) (parent : Path) (node : Node) (i : Nat) :
    insertBefore doc parent node (parent ++ [i])
      = updateChildren (fun children => spliceBefore children i node) doc parent := by
  simp [insertBefore]

/-! ## The `onload` callback -/

theorem byClass_imgOf (cls url : String) : Node.byClass cls (imgOf url) = [] := by
  simp [imgOf, Node.byClass, byClassFrom]

/-- The callback on a document whose first element of class "navigation" has a parent
element: the image is spliced into that parent's child list. -/
theorem onload_inserts (w : World) (event : ProgressEvent) (navigation parent : Path)
    (hnav : (getElementsByClassName w.document "navigation")[0]? = some navigation)
    (hpar : parentElement navigation = some parent) :
    ∃ i ch doc', navigation = parent ++ [i] ∧ parent ≠ [] ∧
      childrenAt w.document parent = some ch ∧ i < ch.length ∧
      updateChildren
        (fun c => spliceBefore c i (imgOf (event.target.result.getD "null")))
        w.document parent = some doc' ∧
      childrenAt doc' parent
        = some (ch.take i ++ imgOf (event.target.result.getD "null") :: ch.drop i) ∧
      (getElementsByClassName doc' "navigation")[0]? = some (parent ++ [i + 1]) ∧
      (∃ tag classes src children, ch[i]? = some (.element tag classes src children) ∧
        classes.contains "navigation" = true) ∧
      onload w event =
        { world := { document := doc',
                     console := w.console ++ [imgOf (event.target.result.getD "null")],
                     readers := w.readers },
          thrown := none } := by
  obtain ⟨i, hp, hne⟩ := parentElement_some navigation parent hpar
  subst hp
  obtain ⟨ch, doc', hca, hlt, hup, hca', hfirst, hanchor⟩ :=
    insert_first "navigation" (imgOf (event.target.result.getD "null"))
      (byClass_imgOf _ _) parent i w.document hnav
  refine ⟨i, ch, doc', rfl, hne, hca, hlt, hup, hca', hfirst, hanchor, ?_⟩
  have hins : insertBefore w.document parent (imgOf (event.target.result.getD "null"))
      (parent ++ [i]) = some doc' := by
    rw [insertBefore_snoc]; exact hup
  unfold onload
  simp only [hnav, hpar]
  have himg : (createElement "img").setSrc (event.target.result.getD "null")
      = imgOf (event.target.result.getD "null") := rfl
  rw [himg, hins]

/-- The callback on a document without an element of class "navigation". -/
theorem onload_no_navigation (w : World) (event : ProgressEvent)
    (hnav : getElementsByClassName w.document "navigation" = []) :
    onload w event =
      { world := { w with console := w.console ++ [imgOf (event.target.result.getD "null")] },
        thrown := some JSError.typeError } := by
  unfold onload
  simp only [hnav]
  rfl

/-- The callback never touches the readers, and changes the number of nodes satisfying
`pred` by at most one, never downwards. -/
theorem onload_count (pred : Label → Bool) (w : World) (event : ProgressEvent) :
    (onload w event).world.readers = w.readers ∧
      countList pred w.document ≤ countList pred (onload w event).world.document ∧
      countList pred (onload w event).world.document ≤ countList pred w.document + 1 := by
  cases hnav : (getElementsByClassName w.document "navigation")[0]? with
  | none =>
    unfold onload; simp only [hnav]; simp
  | some navigation =>
    cases hpar : parentElement navigation with
    | none => unfold onload; simp only [hnav, hpar]; simp
    | some parent =>
      obtain ⟨i, ch, doc', _, _, _, _, hup, _, _, _, hon⟩ :=
        onload_inserts w event navigation parent hnav hpar
      rw [hon]
      have hc := updateChildren_count _ pred
        (Node.count pred (imgOf (event.target.result.getD "null")))
        (fun c c' h => spliceBefore_count pred i _ c c' h) parent w.document doc' hup
      have hle : Node.count pred (imgOf (event.target.result.getD "null")) ≤ 1 := by
        simp only [imgOf, Node.count, countList]
        split <;> omega
      refine ⟨rfl, ?_, ?_⟩
      · show countList pred w.document ≤ countList pred doc'
        rw [hc]; omega
      · show countList pred doc' ≤ countList pred w.document + 1
        rw [hc]; omega

/-! ## Finishing a read -/

theorem getElem?_lt (readers : List FileReader) (i : Nat) (r : FileReader)
    (h : readers[i]? = some r) : i < readers.length := by
  by_contra hge
  rw [List.getElem?_eq_none (by omega)] at h
  exact absurd h (by simp)

/-- Finishing the read the handler has just started. -/
theorem completeRead_fresh (read : Blob → ReadOutcome) (w : World) (event : ClipboardEvent)
    (blob : Blob) (h : scanItems event.clipboardData.items = some blob) :
    completeRead read (onpaste w event) w.readers.length =
      match read blob with
      | .success dataURL =>
          onload { w with readers := w.readers ++ [{ readerFor blob with reading := none }] }
            { target := { result := some dataURL } }
      | .failure =>
          { world := { w with readers :=
              w.readers ++ [{ readerFor blob with reading := none }] },
            thrown := none } := by
  rw [onpaste_eq, h]
  unfold completeRead
  simp only [List.getElem?_concat_length, readerFor]
  rw [List.set_append_right _ _ (le_refl _)]
  cases read blob <;> simp [dispatch]

theorem pendingReads_append (xs ys : List FileReader) :
    pendingReads (xs ++ ys) = pendingReads xs + pendingReads ys := by
  simp [pendingReads]

theorem pendingReads_set (readers : List FileReader) (i : Nat) (r : FileReader) (blob : Blob)
    (h : readers[i]? = some r) (hr : r.reading = some blob) :
    pendingReads (readers.set i { r with reading := none }) + 1 = pendingReads readers := by
  have hlt := getElem?_lt readers i r h
  have hold : readers = readers.take i ++ r :: readers.drop (i + 1) := by
    rw [List.getElem?_eq_getElem hlt] at h
    rw [← Option.some.inj h, ← List.drop_eq_getElem_cons hlt, List.take_append_drop]
  have hnew : readers.set i { r with reading := none }
      = readers.take i ++ { r with reading := none } :: readers.drop (i + 1) := by
    rw [List.set_eq_take_append_cons_drop]; simp [hlt]
  rw [hnew]
  conv_rhs => rw [hold]
  simp only [pendingReads_append]
  simp [pendingReads, hr]
  omega

/-- One finished read: the nodes satisfying `pred` plus the reads in flight never grow in
number, and no node is lost. -/
theorem completeRead_budget (pred : Label → Bool) (read : Blob → ReadOutcome) (w : World)
    (i : Nat) :
    countList pred (completeRead read w i).world.document
        + pendingReads (completeRead read w i).world.readers
      ≤ countList pred w.document + pendingReads w.readers ∧
    countList pred w.document ≤ countList pred (completeRead read w i).world.document := by
  cases hi : w.readers[i]? with
  | none => simp [completeRead, hi]
  | some r =>
    obtain ⟨ol, oe, rd⟩ := r
    cases rd with
    | none => simp [completeRead, hi]
    | some blob =>
      have hp : pendingReads (w.readers.set i { onload := ol, onerror := oe, reading := none })
          + 1 = pendingReads w.readers := pendingReads_set w.readers i _ blob hi rfl
      cases hb : read blob with
      | failure =>
        cases oe with
        | none => simp only [completeRead, hi, hb, dispatch]; omega
        | some cb =>
          cases cb
          have := onload_count pred
            { w with readers := (w.readers.set i
                { onload := ol, onerror := some Callback.pasteOnload, reading := none }) }
            { target := { result := none } }
          simp only [completeRead, hi, hb, dispatch, this.1]
          have h2 := this.2
          simp only [] at h2
          omega
      | success url =>
        cases ol with
        | none => simp only [completeRead, hi, hb, dispatch]; omega
        | some cb =>
          cases cb
          have := onload_count pred
            { w with readers := (w.readers.set i
                { onload := some Callback.pasteOnload, onerror := oe, reading := none }) }
            { target := { result := some url } }
          simp only [completeRead, hi, hb, dispatch, this.1]
          have h2 := this.2
          simp only [] at h2
          omega

theorem runReads_budget (pred : Label → Bool) (sched : List (Nat × (Blob → ReadOutcome))) :
    ∀ w : World,
      countList pred (runReads w sched).document + pendingReads (runReads w sched).readers
        ≤ countList pred w.document + pendingReads w.readers ∧
      countList pred w.document ≤ countList pred (runReads w sched).document := by
  induction sched with
  | nil => intro w; simp [runReads]
  | cons step rest ih =>
    intro w
    obtain ⟨i, read⟩ := step
    have h1 := completeRead_budget pred read w i
    have h2 := ih (completeRead read w i).world
    simp only [runReads]
    omega

theorem completeRead_idle (read : Blob → ReadOutcome) (w : World) (i : Nat)
    (hidle : ∀ r ∈ w.readers, r.reading = none) :
    completeRead read w i = { world := w, thrown := none } := by
  unfold completeRead
  cases hi : w.readers[i]? with
  | none => rfl
  | some r =>
    have hmem : r ∈ w.readers := List.getElem?_mem hi
    simp [hidle r hmem]

theorem runReads_idle (sched : List (Nat × (Blob → ReadOutcome))) (w : World)
    (hidle : ∀ r ∈ w.readers, r.reading = none) : runReads w sched = w := by
  induction sched with
  | nil => rfl
  | cons step rest ih =>
    obtain ⟨i, read⟩ := step
    simp only [runReads, completeRead_idle read w i hidle]
    exact ih

theorem pendingReads_idle (readers : List FileReader)
    (hidle : ∀ r ∈ readers, r.reading = none) : pendingReads readers = 0 := by
  simp only [pendingReads, List.length_eq_zero, List.filter_eq_nil_iff]
  intro r hr
  simp [hidle r hr]

/-! ## A paste against the same run without it -/

/-- No element of the class anywhere: the search finds nothing. -/
theorem getElementsByClassName_eq_nil (doc : List Node) (cls : String)
    (h : ∀ q tag classes src children,
      nodeAt doc q = some (.element tag classes src children) → cls ∉ classes) :
    getElementsByClassName doc cls = [] := by
  cases hl : getElementsByClassName doc cls with
  | nil => rfl
  | cons p rest =>
    exfalso
    have hmem : p ∈ byClassFrom cls 0 doc := by
      show p ∈ getElementsByClassName doc cls
      rw [hl]; simp
    have hne := byClassFrom_ne_nil cls doc 0 p hmem
    have hhead : (byClassFrom cls 0 doc)[0]? = some (p.dropLast ++ [p.getLast hne]) := by
      rw [List.dropLast_append_getLast hne]
      show (getElementsByClassName doc cls)[0]? = some p
      rw [hl]; simp
    obtain ⟨ch, _, hca, _, _, _, _, tag, classes, src, children, hci, hc⟩ :=
      insert_first cls (imgOf "") (byClass_imgOf cls "") p.dropLast (p.getLast hne) doc hhead
    have hnode : nodeAt doc (p.dropLast ++ [p.getLast hne])
        = some (.element tag classes src children) := by
      rw [nodeAt_snoc, hca]; exact hci
    exact h _ tag classes src children hnode (by simpa using hc)

/-- The callback on a document with an anchor: the anchor stays, and the nodes satisfying
`pred` grow by those of the new image. -/
theorem onload_anchor (w : World) (event : ProgressEvent) (h : hasAnchor w.document) :
    hasAnchor (onload w event).world.document ∧
      ∀ pred : Label → Bool,
        countList pred (onload w event).world.document
          = countList pred w.document
            + Node.count pred (imgOf (event.target.result.getD "null")) := by
  obtain ⟨navigation, parent, hnav, hpar⟩ := h
  obtain ⟨i, ch, doc', _, hne, _, _, hup, _, hfirst, _, hon⟩ :=
    onload_inserts w event navigation parent hnav hpar
  rw [hon]
  refine ⟨⟨parent ++ [i + 1], parent, hfirst, parentElement_snoc parent (i + 1) hne⟩, ?_⟩
  intro pred
  exact updateChildren_count _ pred _
    (fun c c' h => spliceBefore_count pred i _ c c' h) parent w.document doc' hup

/-- The callback on a document without an anchor leaves the document alone. -/
theorem onload_no_anchor (w : World) (event : ProgressEvent) (h : ¬ hasAnchor w.document) :
    (onload w event).world.document = w.document := by
  cases hnav : (getElementsByClassName w.document "navigation")[0]? with
  | none => unfold onload; simp only [hnav]
  | some navigation =>
    cases hpar : parentElement navigation with
    | none => unfold onload; simp only [hnav, hpar]
    | some parent => exact absurd ⟨navigation, parent, hnav, hpar⟩ h

theorem count_imgOf_le (pred : Label → Bool) (url : String) :
    Node.count pred (imgOf url) ≤ 1 := by
  simp only [imgOf, Node.count, countList]
  split <;> omega

/-- Firing the same event with the same handler at two states that agree on having an
anchor: the agreement persists and the counts grow by the same amount, at most one. -/
theorem dispatch_pair (w1 w2 : World) (handler : Option Callback) (event : ProgressEvent)
    (ha : hasAnchor w1.document ↔ hasAnchor w2.document) :
    (dispatch w1 handler event).world.readers = w1.readers ∧
    (dispatch w2 handler event).world.readers = w2.readers ∧
    (hasAnchor (dispatch w1 handler event).world.document
      ↔ hasAnchor (dispatch w2 handler event).world.document) ∧
    ∀ pred : Label → Bool, ∃ k, k ≤ 1 ∧
      countList pred (dispatch w1 handler event).world.document
        = countList pred w1.document + k ∧
      countList pred (dispatch w2 handler event).world.document
        = countList pred w2.document + k := by
  cases handler with
  | none => exact ⟨rfl, rfl, ha, fun _ => ⟨0, by omega, rfl, rfl⟩⟩
  | some cb =>
    cases cb
    simp only [dispatch]
    refine ⟨(onload_count (fun _ => true) w1 event).1,
      (onload_count (fun _ => true) w2 event).1, ?_, ?_⟩
    · by_cases h1 : hasAnchor w1.document
      · exact ⟨fun _ => (onload_anchor w2 event (ha.mp h1)).1,
          fun _ => (onload_anchor w1 event h1).1⟩
      · have h2 : ¬ hasAnchor w2.document := fun h => h1 (ha.mpr h)
        rw [onload_no_anchor w1 event h1, onload_no_anchor w2 event h2]
        exact ha
    · intro pred
      by_cases h1 : hasAnchor w1.document
      · exact ⟨_, count_imgOf_le pred _, (onload_anchor w1 event h1).2 pred,
          (onload_anchor w2 event (ha.mp h1)).2 pred⟩
      · have h2 : ¬ hasAnchor w2.document := fun h => h1 (ha.mpr h)
        rw [onload_no_anchor w1 event h1, onload_no_anchor w2 event h2]
        exact ⟨0, by omega, rfl, rfl⟩

theorem completeRead_skip (read : Blob → ReadOutcome) (w : World) (i : Nat)
    (h : ∀ r, w.readers[i]? = some r → r.reading = none) :
    completeRead read w i = { world := w, thrown := none } := by
  cases hi : w.readers[i]? with
  | none => simp [completeRead, hi]
  | some r => simp [completeRead, hi, h r hi]

theorem completeRead_fire (read : Blob → ReadOutcome) (w : World) (i : Nat)
    (ol oe : Option Callback) (blob : Blob)
    (h : w.readers[i]? = some { onload := ol, onerror := oe, reading := some blob }) :
    completeRead read w i =
      match read blob with
      | .success dataURL =>
          dispatch { w with readers :=
              (w.readers.set i { onload := ol, onerror := oe, reading := none }) } ol
            { target := { result := some dataURL } }
      | .failure =>
          dispatch { w with readers :=
              (w.readers.set i { onload := ol, onerror := oe, reading := none }) } oe
            { target := { result := none } } := by
  simp only [completeRead, h]



theorem dispatch_anchor (w : World) (handler : Option Callback) (event : ProgressEvent) :
    hasAnchor (dispatch w handler event).world.document ↔ hasAnchor w.document := by
  cases handler with
  | none => exact Iff.rfl
  | some cb =>
    cases cb
    simp only [dispatch]
    by_cases h : hasAnchor w.document
    · exact ⟨fun _ => h, fun _ => (onload_anchor w event h).1⟩
    · rw [onload_no_anchor w event h]

theorem pendingReads_singleton_le (r : FileReader) : pendingReads [r] ≤ 1 := by
  simp only [pendingReads]
  exact le_trans (List.length_filter_le _ _) (by simp)

/-- The pair lemma with the reader lists of the two states spelled out. -/
theorem fire_pair (w1 w2 : World) (rs1 rs2 : List FileReader) (handler : Option Callback)
    (event : ProgressEvent) (ha : hasAnchor w1.document ↔ hasAnchor w2.document) :
    (dispatch { w1 with readers := rs1 } handler event).world.readers = rs1 ∧
    (dispatch { w2 with readers := rs2 } handler event).world.readers = rs2 ∧
    (hasAnchor (dispatch { w1 with readers := rs1 } handler event).world.document
      ↔ hasAnchor (dispatch { w2 with readers := rs2 } handler event).world.document) ∧
    ∀ pred : Label → Bool, ∃ k, k ≤ 1 ∧
      countList pred (dispatch { w1 with readers := rs1 } handler event).world.document
        = countList pred w1.document + k ∧
      countList pred (dispatch { w2 with readers := rs2 } handler event).world.document
        = countList pred w2.document + k :=
  dispatch_pair { w1 with readers := rs1 } { w2 with readers := rs2 } handler event ha

/-- One finished read, seen in two states of which the second has one more reader, the
same anchor status and at most one more node: the same holds afterwards. -/
theorem completeRead_sim (read : Blob → ReadOutcome) (i : Nat) (w1 w2 : World)
    (r : FileReader) (hr : w2.readers = w1.readers ++ [r])
    (ha : hasAnchor w1.document ↔ hasAnchor w2.document)
    (hc : ∀ pred : Label → Bool,
      countList pred w1.document ≤ countList pred w2.document ∧
      countList pred w2.document + pendingReads [r] ≤ countList pred w1.document + 1) :
    ∃ r', (completeRead read w2 i).world.readers
        = (completeRead read w1 i).world.readers ++ [r'] ∧
      (hasAnchor (completeRead read w1 i).world.document
        ↔ hasAnchor (completeRead read w2 i).world.document) ∧
      ∀ pred : Label → Bool,
        countList pred (completeRead read w1 i).world.document
          ≤ countList pred (completeRead read w2 i).world.document ∧
        countList pred (completeRead read w2 i).world.document + pendingReads [r']
          ≤ countList pred (completeRead read w1 i).world.document + 1 := by
  rcases Nat.lt_trichotomy i w1.readers.length with hlt | heq | hgt
  · -- a reader both states share
    have h1 : w1.readers[i]? = some (w1.readers[i]) := List.getElem?_eq_getElem hlt
    have h2 : w2.readers[i]? = some (w1.readers[i]) := by
      rw [hr, List.getElem?_append_left hlt, h1]
    generalize w1.readers[i] = ri at h1 h2
    obtain ⟨ol, oe, rd⟩ := ri
    cases rd with
    | none =>
      have s1 := completeRead_skip read w1 i (by
        intro x hx; rw [h1] at hx; rw [← Option.some.inj hx])
      have s2 := completeRead_skip read w2 i (by
        intro x hx; rw [h2] at hx; rw [← Option.some.inj hx])
      rw [s1, s2]
      exact ⟨r, hr, ha, hc⟩
    | some blob =>
      rw [completeRead_fire read w1 i ol oe blob h1, completeRead_fire read w2 i ol oe blob h2]
      have hset : w2.readers.set i { onload := ol, onerror := oe, reading := none }
          = w1.readers.set i { onload := ol, onerror := oe, reading := none } ++ [r] := by
        rw [hr, List.set_append_left _ _ hlt]
      cases read blob with
      | success url =>
        obtain ⟨e1, e2, e3, e4⟩ := fire_pair w1 w2
          (w1.readers.set i { onload := ol, onerror := oe, reading := none })
          (w2.readers.set i { onload := ol, onerror := oe, reading := none })
          ol { target := { result := some url } } ha
        dsimp only
        refine ⟨r, ?_, e3, ?_⟩
        · rw [e1, e2, hset]
        · intro pred
          obtain ⟨k, _, k1, k2⟩ := e4 pred
          have := hc pred
          simp only [k1, k2]
          omega
      | failure =>
        obtain ⟨e1, e2, e3, e4⟩ := fire_pair w1 w2
          (w1.readers.set i { onload := ol, onerror := oe, reading := none })
          (w2.readers.set i { onload := ol, onerror := oe, reading := none })
          oe { target := { result := none } } ha
        dsimp only
        refine ⟨r, ?_, e3, ?_⟩
        · rw [e1, e2, hset]
        · intro pred
          obtain ⟨k, _, k1, k2⟩ := e4 pred
          have := hc pred
          simp only [k1, k2]
          omega
  · -- the extra reader of the second state
    have s1 := completeRead_skip read w1 i (by
      intro x hx; rw [List.getElem?_eq_none (by omega)] at hx; exact absurd hx (by simp))
    have h2 : w2.readers[i]? = some r := by
      rw [hr, heq, List.getElem?_concat_length]
    rw [s1]
    obtain ⟨ol, oe, rd⟩ := r
    cases rd with
    | none =>
      have s2 := completeRead_skip read w2 i (by
        intro x hx; rw [h2] at hx; rw [← Option.some.inj hx])
      rw [s2]
      exact ⟨_, hr, ha, hc⟩
    | some blob =>
      rw [completeRead_fire read w2 i ol oe blob h2]
      have hset : w2.readers.set i { onload := ol, onerror := oe, reading := none }
          = w1.readers ++ [{ onload := ol, onerror := oe, reading := none }] := by
        rw [hr, heq, List.set_append_right _ _ (le_refl _)]
        simp
      have hslack : pendingReads
          [({ onload := ol, onerror := oe, reading := some blob } : FileReader)] = 1 := by
        simp [pendingReads]
      have hdone : pendingReads
          [({ onload := ol, onerror := oe, reading := none } : FileReader)] = 0 := by
        simp [pendingReads]
      cases read blob with
      | success url =>
        obtain ⟨_, e2, _, e4⟩ := fire_pair w2 w2
          (w2.readers.set i { onload := ol, onerror := oe, reading := none })
          (w2.readers.set i { onload := ol, onerror := oe, reading := none })
          ol { target := { result := some url } } Iff.rfl
        have e3 : hasAnchor (dispatch { w2 with readers :=
            (w2.readers.set i { onload := ol, onerror := oe, reading := none }) }
            ol { target := { result := some url } }).world.document ↔ hasAnchor w2.document :=
          dispatch_anchor _ _ _
        dsimp only
        refine ⟨{ onload := ol, onerror := oe, reading := none }, ?_, ?_, ?_⟩
        · rw [e2, hset]
        · exact ha.trans e3.symm
        · intro pred
          obtain ⟨k, hk, _, k2⟩ := e4 pred
          have := hc pred
          simp only [k2, hdone]
          rw [hslack] at this
          omega
      | failure =>
        obtain ⟨_, e2, _, e4⟩ := fire_pair w2 w2
          (w2.readers.set i { onload := ol, onerror := oe, reading := none })
          (w2.readers.set i { onload := ol, onerror := oe, reading := none })
          oe { target := { result := none } } Iff.rfl
        have e3 : hasAnchor (dispatch { w2 with readers :=
            (w2.readers.set i { onload := ol, onerror := oe, reading := none }) }
            oe { target := { result := none } }).world.document ↔ hasAnchor w2.document :=
          dispatch_anchor _ _ _
        dsimp only
        refine ⟨{ onload := ol, onerror := oe, reading := none }, ?_, ?_, ?_⟩
        · rw [e2, hset]
        · exact ha.trans e3.symm
        · intro pred
          obtain ⟨k, hk, _, k2⟩ := e4 pred
          have := hc pred
          simp only [k2, hdone]
          rw [hslack] at this
          omega
  · -- no such reader in either state
    have s1 := completeRead_skip read w1 i (by
      intro x hx; rw [List.getElem?_eq_none (by omega)] at hx; exact absurd hx (by simp))
    have s2 := completeRead_skip read w2 i (by
      intro x hx
      rw [hr, List.getElem?_eq_none (by simp; omega)] at hx
      exact absurd hx (by simp))
    rw [s1, s2]
    exact ⟨r, hr, ha, hc⟩

/-- A whole run of the event loop, seen in two such states. -/
theorem runReads_sim (sched : List (Nat × (Blob → ReadOutcome))) :
    ∀ (w1 w2 : World) (r : FileReader), w2.readers = w1.readers ++ [r] →
      (hasAnchor w1.document ↔ hasAnchor w2.document) →
      (∀ pred : Label → Bool,
        countList pred w1.document ≤ countList pred w2.document ∧
        countList pred w2.document + pendingReads [r] ≤ countList pred w1.document + 1) →
      ∀ pred : Label → Bool,
        countList pred (runReads w1 sched).document
          ≤ countList pred (runReads w2 sched).document ∧
        countList pred (runReads w2 sched).document
          ≤ countList pred (runReads w1 sched).document + 1 := by
  induction sched with
  | nil =>
    intro w1 w2 r _ _ hc pred
    have := hc pred
    simp only [runReads]
    omega
  | cons step rest ih =>
    intro w1 w2 r hr ha hc pred
    obtain ⟨i, read⟩ := step
    obtain ⟨r', hr', ha', hc'⟩ := completeRead_sim read i w1 w2 r hr ha hc
    simp only [runReads]
    exact ih _ _ r' hr' ha' hc' pred

theorem splice_getElem?_self (ch : List Node) (i : Nat) (x : Node) (h : i ≤ ch.length) :
    (ch.take i ++ x :: ch.drop i)[i]? = some x := by
  rw [List.getElem?_append_right (by simp [List.length_take])]
  simp [List.length_take, Nat.min_eq_left h]

theorem splice_getElem?_succ (ch : List Node) (i : Nat) (x : Node) (h : i ≤ ch.length) :
    (ch.take i ++ x :: ch.drop i)[i + 1]? = ch[i]? := by
  rw [List.getElem?_append_right (by simp [List.length_take])]
  simp [List.length_take, Nat.min_eq_left h]

theorem splice_eraseIdx (x : Node) : ∀ (i : Nat) (ch : List Node), i ≤ ch.length →
    (ch.take i ++ x :: ch.drop i).eraseIdx i = ch := by
  intro i
  induction i with
  | zero => intro ch _; simp
  | succ i ih =>
    intro ch h
    cases ch with
    | nil => simp at h
    | cons a rest =>
      simp only [List.take_succ_cons, List.drop_succ_cons, List.cons_append,
        List.eraseIdx_cons_succ]
      rw [ih rest (by simpa using h)]

/-! ## The claims -/

/-- Claim C8: the candidate test of the loop, `type.indexOf("image") === 0`, holds exactly when
"image" is a prefix of the type string; "image/png" and the bare "image" pass it, while
"text/image", "Image/png", "imag" and the empty string do not. -/
theorem candidate_test_iff_starts_with_image :
    (∀ t : String, indexOf t "image" = 0 ↔ "image".toList <+: t.toList) ∧
      indexOf "image/png" "image" = 0 ∧ indexOf "image" "image" = 0 ∧
      indexOf "text/image" "image" ≠ 0 ∧ indexOf "Image/png" "image" ≠ 0 ∧
      indexOf "imag" "image" ≠ 0 ∧ indexOf "" "image" ≠ 0 := by
  refine ⟨fun t => indexOf_image_iff t, ?_, ?_, ?_, ?_, ?_, ?_⟩ <;> decide

/-- Claim C2: when no clipboard entry has a type starting with "image" (the empty list included),
the handler returns the state it was given: no reader is created, no read is started and
the document is unchanged. -/
theorem no_image_entry_no_effect (w : World) (event : ClipboardEvent)
    (h : ∀ item ∈ event.clipboardData.items, ¬ startsWithImage item.type) :
    onpaste w event = w ∧ (onpaste w event).readers = w.readers ∧
      (onpaste w event).document = w.document := by
  have hnil : imageEntries event.clipboardData.items = [] := by
    simp only [imageEntries, List.filter_eq_nil_iff, decide_eq_true_eq]
    exact h
  have hscan : scanItems event.clipboardData.items = none := by
    rw [scanItems_eq, hnil]; rfl
  have : onpaste w event = w := by rw [onpaste_eq, hscan]
  rw [this]
  exact ⟨rfl, rfl, rfl⟩

/-- Claim C2 at a clipboard holding only a text entry. -/
theorem no_image_entry_no_effect_witness :
    (∀ item ∈ ({ clipboardData := { items := [{ type := "text/plain", getAsFile := none }] } }
        : ClipboardEvent).clipboardData.items, ¬ startsWithImage item.type) ∧
    onpaste { document := [.element "html" [] none []], console := [], readers := [] }
        { clipboardData := { items := [{ type := "text/plain", getAsFile := none }] } }
      = { document := [.element "html" [] none []], console := [], readers := [] } :=
  ⟨by decide,
   (no_image_entry_no_effect
      { document := [.element "html" [] none []], console := [], readers := [] }
      { clipboardData := { items := [{ type := "text/plain", getAsFile := none }] } }
      (by decide)).1⟩

/-- Claim C6: entries whose type does not start with "image" never affect the outcome.  The
blob selected on a list is the blob selected on its image-type entries; adding or removing
one non-image entry at any position changes neither the blob nor the effect of the handler;
and two lists with the same image-type entries have the same effect. -/
theorem non_image_entries_ignored (w : World) :
    (∀ items, scanItems items = scanItems (imageEntries items)) ∧
    (∀ pre post extra, ¬ startsWithImage extra.type →
      scanItems (pre ++ extra :: post) = scanItems (pre ++ post) ∧
      onpaste w { clipboardData := { items := pre ++ extra :: post } }
        = onpaste w { clipboardData := { items := pre ++ post } }) ∧
    (∀ items items', imageEntries items = imageEntries items' →
      onpaste w { clipboardData := { items := items } }
        = onpaste w { clipboardData := { items := items' } }) := by
  have hgen : ∀ items items', imageEntries items = imageEntries items' →
      scanItems items = scanItems items' := by
    intro items items' h
    rw [scanItems_eq, scanItems_eq, h]
  have hpaste : ∀ items items', imageEntries items = imageEntries items' →
      onpaste w { clipboardData := { items := items } }
        = onpaste w { clipboardData := { items := items' } } := by
    intro items items' h
    rw [onpaste_eq, onpaste_eq]
    simp only [hgen items items' h]
  have hins : ∀ pre post extra, ¬ startsWithImage extra.type →
      imageEntries (pre ++ extra :: post) = imageEntries (pre ++ post) := by
    intro pre post extra hx
    simp [imageEntries, List.filter_append, hx]
  refine ⟨?_, ?_, hpaste⟩
  · intro items
    apply hgen
    simp [imageEntries]
  · intro pre post extra hx
    exact ⟨hgen _ _ (hins pre post extra hx), hpaste _ _ (hins pre post extra hx)⟩

/-- Claim C6 at a text entry put between a PNG and a GIF entry. -/
theorem non_image_entries_ignored_witness :
    ¬ startsWithImage "text/plain" ∧
    scanItems ([{ type := "image/png", getAsFile := some pngFile }]
        ++ { type := "text/plain", getAsFile := none }
          :: [{ type := "image/gif", getAsFile := some gifFile }])
      = scanItems ([{ type := "image/png", getAsFile := some pngFile }]
        ++ [{ type := "image/gif", getAsFile := some gifFile }]) :=
  ⟨by decide,
   ((non_image_entries_ignored (freshWorld examplePage)).2.1
      [{ type := "image/png", getAsFile := some pngFile }]
      [{ type := "image/gif", getAsFile := some gifFile }]
      { type := "text/plain", getAsFile := none }
      (by decide)).1⟩

/-- Claim C10: the candidate is overwritten by the `getAsFile` result of every image-type entry,
a `null` result included.  A read is started exactly when there is an image-type entry and
the last one yields a file; when the last image-type entry yields `null` the handler returns
the state unchanged, as in the case without image entries, whatever earlier entries held. -/
theorem read_started_iff_last_image_entry_has_file (w : World) (event : ClipboardEvent) :
    (∀ pre entry, startsWithImage entry.type → scanItems (pre ++ [entry]) = entry.getAsFile) ∧
    ((onpaste w event).readers ≠ w.readers ↔
      ∃ entry blob, (imageEntries event.clipboardData.items).getLast? = some entry ∧
        entry.getAsFile = some blob) ∧
    (∀ entry blob, (imageEntries event.clipboardData.items).getLast? = some entry →
      entry.getAsFile = some blob →
      onpaste w event = { w with readers := w.readers ++ [readerFor blob] }) ∧
    (∀ entry, (imageEntries event.clipboardData.items).getLast? = some entry →
      entry.getAsFile = none → onpaste w event = w) := by
  have hsome : ∀ entry blob, (imageEntries event.clipboardData.items).getLast? = some entry →
      entry.getAsFile = some blob →
      onpaste w event = { w with readers := w.readers ++ [readerFor blob] } := by
    intro entry blob hl hf
    have : scanItems event.clipboardData.items = some blob := by
      rw [scanItems_eq, hl]; exact hf
    rw [onpaste_eq, this]
  have hnone : ∀ entry, (imageEntries event.clipboardData.items).getLast? = some entry →
      entry.getAsFile = none → onpaste w event = w := by
    intro entry hl hf
    have : scanItems event.clipboardData.items = none := by
      rw [scanItems_eq, hl]; exact hf
    rw [onpaste_eq, this]
  refine ⟨?_, ?_, hsome, hnone⟩
  · intro pre entry he
    have h0 : indexOf entry.type "image" = 0 := (indexOf_image_iff _).mpr he
    simp [scanItems, List.foldl_append, h0]
  · constructor
    · intro hne
      cases hl : (imageEntries event.clipboardData.items).getLast? with
      | none =>
        exfalso; apply hne
        have : scanItems event.clipboardData.items = none := by
          rw [scanItems_eq, hl]; rfl
        rw [onpaste_eq, this]
      | some entry =>
        cases hf : entry.getAsFile with
        | none => exfalso; apply hne; rw [hnone entry hl hf]
        | some blob => exact ⟨entry, blob, rfl, hf⟩
    · rintro ⟨entry, blob, hl, hf⟩
      rw [hsome entry blob hl hf]
      intro h
      have := congrArg List.length h
      simp at this

/-- Claim C10 at a PNG file followed by an image-type entry that is not a file. -/
theorem read_started_iff_last_image_entry_has_file_witness :
    ((imageEntries nullLastPaste.clipboardData.items).getLast?
        = some { type := "image/svg+xml", getAsFile := none } ∧
      ({ type := "image/svg+xml", getAsFile := none } : DataTransferItem).getAsFile = none) ∧
    (onpaste (freshWorld examplePage) nullLastPaste).readers = [] :=
  ⟨⟨by decide, rfl⟩,
   congrArg World.readers
     ((read_started_iff_last_image_entry_has_file (freshWorld examplePage) nullLastPaste).2.2.2
       { type := "image/svg+xml", getAsFile := none } (by decide) rfl)⟩

/-- Claim C1, as stated, fails: this clipboard holds an image-type entry whose `getAsFile` yields
a file, yet the handler starts no read, because a later image-type entry yields `null`. -/
theorem earlier_image_file_not_read :
    (∃ item ∈ nullLastPaste.clipboardData.items,
      startsWithImage item.type ∧ item.getAsFile = some pngFile) ∧
    scanItems nullLastPaste.clipboardData.items = none ∧
    (onpaste (freshWorld examplePage) nullLastPaste).readers = [] :=
  ⟨⟨{ type := "image/png", getAsFile := some pngFile }, by decide, by decide, rfl⟩,
   by decide, by decide⟩

/-- Claim C1, amended: when the LAST image-type entry of the clipboard yields a file, the handler
starts exactly one read, of that file; and when that read succeeds, the image element built
by the `onload` callback (the one logged, and the one inserted when the first "navigation"
element has a parent element) has as `src` the data URL the read produced.  With exactly one
image-type entry, that entry is the last one. -/
theorem last_image_entry_is_read (read : Blob → ReadOutcome) (w : World)
    (event : ClipboardEvent) (entry : DataTransferItem) (blob : Blob) (dataURL : String)
    (hlast : (imageEntries event.clipboardData.items).getLast? = some entry)
    (hfile : entry.getAsFile = some blob)
    (hread : read blob = ReadOutcome.success dataURL) :
    (onpaste w event).readers = w.readers ++ [readerFor blob] ∧
    (completeRead read (onpaste w event) w.readers.length).world.console
      = w.console ++ [.element "img" [] (some dataURL) []] ∧
    (∀ navigation parent,
      (getElementsByClassName w.document "navigation")[0]? = some navigation →
      parentElement navigation = some parent →
      nodeAt (completeRead read (onpaste w event) w.readers.length).world.document navigation
        = some (.element "img" [] (some dataURL) [])) ∧
    (∀ only, imageEntries event.clipboardData.items = [only] → only = entry) := by
  have hscan : scanItems event.clipboardData.items = some blob := by
    rw [scanItems_eq, hlast]; exact hfile
  have hc := completeRead_fresh read w event blob hscan
  rw [hread] at hc
  simp only [] at hc
  refine ⟨?_, ?_, ?_, ?_⟩
  · rw [onpaste_eq, hscan]
  · rw [hc]
    cases hnav : (getElementsByClassName w.document "navigation")[0]? with
    | none => unfold onload; simp only [hnav]; rfl
    | some navigation =>
      cases hpar : parentElement navigation with
      | none => unfold onload; simp only [hnav, hpar]; rfl
      | some parent =>
        obtain ⟨i, ch, doc', _, _, _, _, _, _, _, _, hon⟩ :=
          onload_inserts { w with readers := w.readers ++ [{ readerFor blob with reading := none }] }
            { target := { result := some dataURL } } navigation parent hnav hpar
        rw [hon]; rfl
  · intro navigation parent hnav hpar
    rw [hc]
    obtain ⟨i, ch, doc', hp, _, _, hlt, _, hca', _, _, hon⟩ :=
      onload_inserts { w with readers := w.readers ++ [{ readerFor blob with reading := none }] }
        { target := { result := some dataURL } } navigation parent hnav hpar
    rw [hon, hp]
    show nodeAt doc' (parent ++ [i]) = _
    rw [nodeAt_snoc, hca']
    exact splice_getElem?_self ch i _ (Nat.le_of_lt hlt)
  · intro only honly
    rw [honly] at hlast
    simpa using hlast

/-- Claim C1, amended, at the example of the specification: one image-type entry. -/
theorem last_image_entry_is_read_witness :
    ((imageEntries examplePaste.clipboardData.items).getLast?
        = some { type := "image/png", getAsFile := some pngFile } ∧
      ({ type := "image/png", getAsFile := some pngFile } : DataTransferItem).getAsFile
        = some pngFile ∧
      pngRead pngFile = ReadOutcome.success "data:image/png;base64,iVBORw==") ∧
    (onpaste (freshWorld examplePage) examplePaste).readers = [readerFor pngFile] ∧
    (completeRead pngRead (onpaste (freshWorld examplePage) examplePaste) 0).world.console
      = [.element "img" [] (some "data:image/png;base64,iVBORw==") []] :=
  ⟨⟨by decide, rfl, rfl⟩,
   (last_image_entry_is_read pngRead (freshWorld examplePage) examplePaste
      { type := "image/png", getAsFile := some pngFile } pngFile
      "data:image/png;base64,iVBORw==" (by decide) rfl rfl).1,
   (last_image_entry_is_read pngRead (freshWorld examplePage) examplePaste
      { type := "image/png", getAsFile := some pngFile } pngFile
      "data:image/png;base64,iVBORw==" (by decide) rfl rfl).2.1⟩

/-- Claim C3, as stated, fails: this document contains elements of class "navigation", the first
of them being the root element, which has no parent element; the callback throws a
`TypeError` and inserts nothing. -/
theorem root_navigation_nothing_inserted :
    (getElementsByClassName rootMarkedPage "navigation")[0]? = some [0] ∧
    (onload (freshWorld rootMarkedPage)
        { target := { result := some "data:image/png;base64,iVBORw==" } }).thrown
      = some JSError.typeError ∧
    (onload (freshWorld rootMarkedPage)
        { target := { result := some "data:image/png;base64,iVBORw==" } }).world.document
      = rootMarkedPage :=
  ⟨by decide, by decide, rfl⟩

/-- Claim C3, amended: when the first element of class "navigation" in document order has a
parent element (it is not the root element), the callback throws nothing and inserts the new
image element as the immediately preceding sibling of that element: the image takes the
element's place in the parent's child list, the element itself moves one place up, is
still the first element of class "navigation", and has the same parent element.  That
element is the first of its class in document order: every other element of the class comes
after it in a preorder walk. -/
theorem image_inserted_before_first_navigation (w : World) (event : ProgressEvent)
    (navigation parent : Path)
    (hnav : (getElementsByClassName w.document "navigation")[0]? = some navigation)
    (hpar : parentElement navigation = some parent) :
    ∃ i, navigation = parent ++ [i] ∧
      (onload w event).thrown = none ∧
      nodeAt (onload w event).world.document (parent ++ [i])
        = some (.element "img" [] (some (event.target.result.getD "null")) []) ∧
      nodeAt (onload w event).world.document (parent ++ [i + 1])
        = nodeAt w.document navigation ∧
      (∃ tag classes src children,
        nodeAt w.document navigation = some (.element tag classes src children) ∧
        "navigation" ∈ classes) ∧
      (getElementsByClassName (onload w event).world.document "navigation")[0]?
        = some (parent ++ [i + 1]) ∧
      parentElement (parent ++ [i + 1]) = some parent ∧
      (nodeAt (onload w event).world.document parent).map Node.label
        = (nodeAt w.document parent).map Node.label ∧
      (∀ q tag classes src children,
        nodeAt w.document q = some (.element tag classes src children) →
        "navigation" ∈ classes → q = navigation ∨ precedes navigation q = true) := by
  obtain ⟨i, ch, doc', hp, hne, hca, hlt, hup, hca', hfirst, hanchor, hon⟩ :=
    onload_inserts w event navigation parent hnav hpar
  have hle := Nat.le_of_lt hlt
  refine ⟨i, hp, ?_, ?_, ?_, ?_, ?_, parentElement_snoc parent (i + 1) hne, ?_, ?_⟩
  rotate_right
  · intro q tag classes src children hq hcls
    exact first_byClass_minimal "navigation" w.document navigation q tag classes src children
      hnav hq (by simpa using hcls)
  · rw [hon]
  · rw [hon]
    show nodeAt doc' (parent ++ [i]) = _
    rw [nodeAt_snoc, hca']
    exact splice_getElem?_self ch i _ hle
  · rw [hon, hp]
    show nodeAt doc' (parent ++ [i + 1]) = _
    rw [nodeAt_snoc, nodeAt_snoc, hca', hca]
    exact splice_getElem?_succ ch i _ hle
  · obtain ⟨tag, classes, src, children, hci, hcls⟩ := hanchor
    refine ⟨tag, classes, src, children, ?_, by simpa using hcls⟩
    rw [hp, nodeAt_snoc, hca]
    exact hci
  · rw [hon]; exact hfirst
  · rw [hon]
    show (nodeAt doc' parent).map Node.label = _
    have hsplit : parent = parent.dropLast ++ [parent.getLast hne] :=
      (List.dropLast_append_getLast hne).symm
    have hframe := updateChildren_frame _ parent w.document doc' hup parent.dropLast
      (by
        intro hpre
        have hlen := hpre.length_le
        have : parent.length = parent.dropLast.length + 1 := by
          conv_lhs => rw [hsplit]
          simp
        omega)
    rw [hsplit, nodeAt_snoc, nodeAt_snoc]
    cases ha : childrenAt doc' parent.dropLast with
    | none =>
      cases hb : childrenAt w.document parent.dropLast with
      | none => rfl
      | some b => rw [ha, hb] at hframe; simp at hframe
    | some a =>
      cases hb : childrenAt w.document parent.dropLast with
      | none => rw [ha, hb] at hframe; simp at hframe
      | some b =>
        rw [ha, hb] at hframe
        simp only [Option.map_some', Option.some.injEq] at hframe
        show (a[parent.getLast hne]?).map Node.label = (b[parent.getLast hne]?).map Node.label
        rw [← List.getElem?_map, ← List.getElem?_map, hframe]

/-- Claim C3, amended, at the page of the specification's example. -/
theorem image_inserted_before_first_navigation_witness :
    ((getElementsByClassName (freshWorld examplePage).document "navigation")[0]?
        = some [0, 1, 1] ∧
      parentElement [0, 1, 1] = some [0, 1]) ∧
    ∃ i, [0, 1, 1] = [0, 1] ++ [i] ∧
      (onload (freshWorld examplePage)
        { target := { result := some "data:image/png;base64,iVBORw==" } }).thrown = none ∧
      nodeAt (onload (freshWorld examplePage)
          { target := { result := some "data:image/png;base64,iVBORw==" } }).world.document
          ([0, 1] ++ [i])
        = some (.element "img" [] (some (("data:image/png;base64,iVBORw==" : String))) []) :=
  ⟨⟨by decide, rfl⟩,
   (image_inserted_before_first_navigation (freshWorld examplePage)
      { target := { result := some "data:image/png;base64,iVBORw==" } } [0, 1, 1] [0, 1]
      (by decide) rfl).imp (fun _ h => ⟨h.1, h.2.1, h.2.2.1⟩)⟩

/-- Claim C9, as stated, fails: on this document the "navigation" element is the root element,
whose parent is the `Document` node; the callback throws, no child list grows and no node is
spliced in. -/
theorem root_navigation_child_lists_unchanged :
    (getElementsByClassName rootOnlyPage "navigation")[0]? = some [0] ∧
    parentElement [0] = none ∧
    (onload (freshWorld rootOnlyPage) { target := { result := some "data:," } }).world.document
      = rootOnlyPage ∧
    (childrenAt (onload (freshWorld rootOnlyPage)
        { target := { result := some "data:," } }).world.document []).map List.length
      = (childrenAt rootOnlyPage []).map List.length :=
  ⟨by decide, rfl, rfl, rfl⟩

/-- Claim C9, amended: when the first element of class "navigation" has a parent element, the
callback changes the document by one splice only.  The parent's child list afterwards is the
old list with the new image put directly before the navigation element: one node longer,
and giving back the old list when the new node is taken out.  Every child list that does not
lie at or below the parent keeps the labels of all its nodes (so all other nodes, the parent
and its ancestors included, keep their data and their place), and the readers are untouched. -/
theorem insertion_frame (w : World) (event : ProgressEvent) (navigation parent : Path)
    (hnav : (getElementsByClassName w.document "navigation")[0]? = some navigation)
    (hpar : parentElement navigation = some parent) :
    ∃ i before after, navigation = parent ++ [i] ∧
      childrenAt w.document parent = some before ∧
      before[i]? = nodeAt w.document navigation ∧ i < before.length ∧
      childrenAt (onload w event).world.document parent = some after ∧
      after = before.take i
        ++ .element "img" [] (some (event.target.result.getD "null")) [] :: before.drop i ∧
      after.length = before.length + 1 ∧
      after.eraseIdx i = before ∧
      (∀ q : Path, ¬ parent <+: q →
        (childrenAt (onload w event).world.document q).map (List.map Node.label)
          = (childrenAt w.document q).map (List.map Node.label)) ∧
      (onload w event).world.readers = w.readers := by
  obtain ⟨i, ch, doc', hp, hne, hca, hlt, hup, hca', hfirst, hanchor, hon⟩ :=
    onload_inserts w event navigation parent hnav hpar
  have hle := Nat.le_of_lt hlt
  refine ⟨i, ch, _, hp, hca, ?_, hlt, ?_, rfl, ?_, ?_, ?_, ?_⟩
  · rw [hp, nodeAt_snoc, hca]; rfl
  · rw [hon]; exact hca'
  · simp [List.length_take, Nat.min_eq_left hle]
    omega
  · exact splice_eraseIdx _ i ch hle
  · intro q hq
    rw [hon]
    exact updateChildren_frame _ parent w.document doc' hup q hq
  · rw [hon]

/-- Claim C9, amended, at the page of the specification's example. -/
theorem insertion_frame_witness :
    ((getElementsByClassName (freshWorld examplePage).document "navigation")[0]?
        = some [0, 1, 1] ∧
      parentElement [0, 1, 1] = some [0, 1]) ∧
    ∃ i before after, [0, 1, 1] = [0, 1] ++ [i] ∧
      childrenAt (freshWorld examplePage).document [0, 1] = some before ∧
      before[i]? = nodeAt (freshWorld examplePage).document [0, 1, 1] ∧ i < before.length ∧
      childrenAt (onload (freshWorld examplePage)
          { target := { result := some "data:," } }).world.document [0, 1] = some after ∧
      after = before.take i ++ .element "img" [] (some "data:,") [] :: before.drop i ∧
      after.length = before.length + 1 :=
  ⟨⟨by decide, rfl⟩,
   (insertion_frame (freshWorld examplePage) { target := { result := some "data:," } }
      [0, 1, 1] [0, 1] (by decide) rfl).imp
     (fun _ h => h.imp (fun _ h => h.imp (fun _ h =>
       ⟨h.1, h.2.1, h.2.2.1, h.2.2.2.1, h.2.2.2.2.1, h.2.2.2.2.2.1, h.2.2.2.2.2.2.1⟩)))⟩

/-- Claim C4, as stated, fails: on this page without a "navigation" element, a paste holding a
PNG image entry with a file makes the handler start the read and return; when the read then
fails nothing is thrown.  And a paste whose PNG entry is followed by an image-type entry
that is not a file starts no read at all, so nothing can be thrown. -/
theorem no_navigation_no_error_raised :
    getElementsByClassName plainPage "navigation" = [] ∧
    (∃ item ∈ examplePaste.clipboardData.items,
      startsWithImage item.type ∧ item.getAsFile = some pngFile) ∧
    (onpaste (freshWorld plainPage) examplePaste).readers = [readerFor pngFile] ∧
    (completeRead failingRead (onpaste (freshWorld plainPage) examplePaste) 0).thrown = none ∧
    (∃ item ∈ nullLastPaste.clipboardData.items,
      startsWithImage item.type ∧ item.getAsFile = some pngFile) ∧
    (onpaste (freshWorld plainPage) nullLastPaste).readers = [] :=
  ⟨by decide,
   ⟨{ type := "image/png", getAsFile := some pngFile }, by decide, by decide, rfl⟩,
   by decide, by decide,
   ⟨{ type := "image/png", getAsFile := some pngFile }, by decide, by decide, rfl⟩,
   by decide⟩

/-- Claim C4, amended: on a document in which no element has the class "navigation", a paste
whose LAST image-type entry yields a file makes the handler start the read of that file and
return with the document untouched; when that read succeeds, the `onload` callback ends in a
`TypeError`, and the document tree is exactly as before, so no image element has been
inserted anywhere. -/
theorem no_navigation_raises (read : Blob → ReadOutcome) (w : World) (event : ClipboardEvent)
    (entry : DataTransferItem) (blob : Blob) (dataURL : String)
    (hnone : ∀ q tag classes src children,
      nodeAt w.document q = some (.element tag classes src children) →
      "navigation" ∉ classes)
    (hlast : (imageEntries event.clipboardData.items).getLast? = some entry)
    (hfile : entry.getAsFile = some blob)
    (hread : read blob = ReadOutcome.success dataURL) :
    (onpaste w event).readers = w.readers ++ [readerFor blob] ∧
    (onpaste w event).document = w.document ∧
    (completeRead read (onpaste w event) w.readers.length).thrown
      = some JSError.typeError ∧
    (completeRead read (onpaste w event) w.readers.length).world.document = w.document := by
  have hempty := getElementsByClassName_eq_nil w.document "navigation" hnone
  have hscan : scanItems event.clipboardData.items = some blob := by
    rw [scanItems_eq, hlast]; exact hfile
  have hc := completeRead_fresh read w event blob hscan
  rw [hread] at hc
  simp only [] at hc
  have hon := onload_no_navigation
    { w with readers := w.readers ++ [{ readerFor blob with reading := none }] }
    { target := { result := some dataURL } } hempty
  rw [hc, hon]
  refine ⟨?_, ?_, rfl, rfl⟩
  · rw [onpaste_eq, hscan]
  · rw [onpaste_eq, hscan]

/-- Claim C4, amended, at a page without a navigation element and the example paste. -/
theorem no_navigation_raises_witness :
    ((∀ q tag classes src children,
        nodeAt (freshWorld plainPage).document q = some (.element tag classes src children) →
        "navigation" ∉ classes) ∧
      (imageEntries examplePaste.clipboardData.items).getLast?
        = some { type := "image/png", getAsFile := some pngFile } ∧
      ({ type := "image/png", getAsFile := some pngFile } : DataTransferItem).getAsFile
        = some pngFile ∧
      pngRead pngFile = ReadOutcome.success "data:image/png;base64,iVBORw==") ∧
    (completeRead pngRead (onpaste (freshWorld plainPage) examplePaste) 0).thrown
      = some JSError.typeError ∧
    (completeRead pngRead (onpaste (freshWorld plainPage) examplePaste) 0).world.document
      = plainPage :=
  have hpage : ∀ q tag classes src children,
      nodeAt (freshWorld plainPage).document q = some (.element tag classes src children) →
      "navigation" ∉ classes := by
    intro q tag classes src children hq hc
    have hmem := byClassFrom_complete "navigation" q plainPage tag classes src children hq
      (by simpa using hc)
    have hnil : byClassFrom "navigation" 0 plainPage = [] := by decide
    rw [hnil] at hmem
    exact absurd hmem (by simp)
  ⟨⟨hpage, by decide, rfl, rfl⟩,
   (no_navigation_raises pngRead (freshWorld plainPage) examplePaste
      { type := "image/png", getAsFile := some pngFile } pngFile
      "data:image/png;base64,iVBORw==" hpage (by decide) rfl rfl).2.2⟩

/-- Claim C7: when the read of the selected blob fails, the environment fires the `error` event,
for which the handler has registered nothing: the document and the console are as before
the paste and nothing is thrown. -/
theorem failed_read_is_silent (read : Blob → ReadOutcome) (w : World) (event : ClipboardEvent)
    (hfail : ∀ entry blob, (imageEntries event.clipboardData.items).getLast? = some entry →
      entry.getAsFile = some blob → read blob = ReadOutcome.failure) :
    (completeRead read (onpaste w event) w.readers.length).world.document = w.document ∧
    (completeRead read (onpaste w event) w.readers.length).world.console = w.console ∧
    (completeRead read (onpaste w event) w.readers.length).thrown = none ∧
    (∀ reader ∈ (onpaste w event).readers, reader ∉ w.readers → reader.onerror = none) := by
  cases hscan : scanItems event.clipboardData.items with
  | none =>
    have hw : onpaste w event = w := by rw [onpaste_eq, hscan]
    rw [hw]
    have : completeRead read w w.readers.length = { world := w, thrown := none } := by
      unfold completeRead
      simp
    rw [this]
    exact ⟨rfl, rfl, rfl, fun r hr hnr => absurd hr hnr⟩
  | some blob =>
    have hc := completeRead_fresh read w event blob hscan
    have hrd : read blob = ReadOutcome.failure := by
      rw [scanItems_eq] at hscan
      cases hl : (imageEntries event.clipboardData.items).getLast? with
      | none => rw [hl] at hscan; simp at hscan
      | some entry =>
        rw [hl] at hscan
        exact hfail entry blob hl hscan
    rw [hrd] at hc
    simp only [] at hc
    rw [hc]
    refine ⟨rfl, rfl, rfl, ?_⟩
    intro r hr hnr
    rw [onpaste_eq, hscan] at hr
    simp only [List.mem_append, List.mem_singleton] at hr
    rcases hr with hr | hr
    · exact absurd hr hnr
    · rw [hr]; rfl

/-- Claim C7 at the example paste with a failing read. -/
theorem failed_read_is_silent_witness :
    (∀ entry blob, (imageEntries examplePaste.clipboardData.items).getLast? = some entry →
      entry.getAsFile = some blob → failingRead blob = ReadOutcome.failure) ∧
    (onpaste (freshWorld examplePage) examplePaste).readers = [readerFor pngFile] ∧
    (completeRead failingRead (onpaste (freshWorld examplePage) examplePaste) 0).world.document
      = examplePage ∧
    (completeRead failingRead (onpaste (freshWorld examplePage) examplePaste) 0).world.console
      = [] ∧
    (completeRead failingRead (onpaste (freshWorld examplePage) examplePaste) 0).thrown
      = none :=
  ⟨fun _ _ _ _ => rfl, by decide,
   (failed_read_is_silent failingRead (freshWorld examplePage) examplePaste
      (fun _ _ _ _ => rfl)).1,
   (failed_read_is_silent failingRead (freshWorld examplePage) examplePaste
      (fun _ _ _ _ => rfl)).2.1,
   (failed_read_is_silent failingRead (freshWorld examplePage) examplePaste
      (fun _ _ _ _ => rfl)).2.2.1⟩

/-- Claim C5: for every paste event, in whatever state it arrives, the handler leaves the
document alone and starts at most one read.  Over any schedule of read completions that
follows, the run with the paste ends with at least as many nodes of every kind (`img`
elements in particular) as the same run without the paste, and with at most one more; the
nodes plus the reads in flight never exceed those before the paste plus one; and the two
runs end in different documents only if some clipboard entry has a type starting with
"image". -/
theorem at_most_one_image_per_paste (w : World) (event : ClipboardEvent)
    (sched : List (Nat × (Blob → ReadOutcome))) :
    (onpaste w event).document = w.document ∧
    (onpaste w event).readers.length ≤ w.readers.length + 1 ∧
    pendingReads (onpaste w event).readers ≤ pendingReads w.readers + 1 ∧
    (∀ pred : Label → Bool,
      countList pred (runReads w sched).document
        ≤ countList pred (runReads (onpaste w event) sched).document ∧
      countList pred (runReads (onpaste w event) sched).document
        ≤ countList pred (runReads w sched).document + 1) ∧
    countList Label.isImg (runReads (onpaste w event) sched).document
      ≤ countList Label.isImg (runReads w sched).document + 1 ∧
    (∀ pred : Label → Bool,
      countList pred w.document ≤ countList pred (runReads (onpaste w event) sched).document ∧
      countList pred (runReads (onpaste w event) sched).document
          + pendingReads (runReads (onpaste w event) sched).readers
        ≤ countList pred w.document + pendingReads w.readers + 1) ∧
    ((runReads (onpaste w event) sched).document ≠ (runReads w sched).document →
      ∃ item ∈ event.clipboardData.items, startsWithImage item.type) := by
  have hdoc : (onpaste w event).document = w.document := by
    rw [onpaste_eq]; cases scanItems event.clipboardData.items <;> rfl
  have hlen : (onpaste w event).readers.length ≤ w.readers.length + 1 := by
    rw [onpaste_eq]; cases scanItems event.clipboardData.items <;> simp
  have hpend : pendingReads (onpaste w event).readers ≤ pendingReads w.readers + 1 := by
    rw [onpaste_eq]
    cases scanItems event.clipboardData.items with
    | none => simp only []; omega
    | some blob =>
      simp only [pendingReads_append]
      have := pendingReads_singleton_le (readerFor blob)
      omega
  have hpair : ∀ pred : Label → Bool,
      countList pred (runReads w sched).document
        ≤ countList pred (runReads (onpaste w event) sched).document ∧
      countList pred (runReads (onpaste w event) sched).document
        ≤ countList pred (runReads w sched).document + 1 := by
    intro pred
    cases hscan : scanItems event.clipboardData.items with
    | none =>
      have hw : onpaste w event = w := by rw [onpaste_eq, hscan]
      rw [hw]; omega
    | some blob =>
      have hw : onpaste w event = { w with readers := w.readers ++ [readerFor blob] } := by
        rw [onpaste_eq, hscan]
      rw [hw]
      exact runReads_sim sched w { w with readers := w.readers ++ [readerFor blob] }
        (readerFor blob) rfl Iff.rfl
        (fun p => ⟨le_refl _, by
          have := pendingReads_singleton_le (readerFor blob)
          show countList p w.document + pendingReads [readerFor blob]
            ≤ countList p w.document + 1
          omega⟩) pred
  have hbudget : ∀ pred : Label → Bool,
      countList pred w.document ≤ countList pred (runReads (onpaste w event) sched).document ∧
      countList pred (runReads (onpaste w event) sched).document
          + pendingReads (runReads (onpaste w event) sched).readers
        ≤ countList pred w.document + pendingReads w.readers + 1 := by
    intro pred
    have hb := runReads_budget pred sched (onpaste w event)
    rw [hdoc] at hb
    omega
  refine ⟨hdoc, hlen, hpend, hpair, (hpair Label.isImg).2, hbudget, ?_⟩
  intro hchange
  by_contra hno
  apply hchange
  have hnil : imageEntries event.clipboardData.items = [] := by
    simp only [imageEntries, List.filter_eq_nil_iff, decide_eq_true_eq]
    intro item hmem himg
    exact hno ⟨item, hmem, himg⟩
  have hscan : scanItems event.clipboardData.items = none := by
    rw [scanItems_eq, hnil]; rfl
  have hw : onpaste w event = w := by rw [onpaste_eq, hscan]
  rw [hw]

/-- Claim C5 at a second paste arriving while the read of a first one is in flight, with both
reads then completing, the later one first. -/
theorem at_most_one_image_per_paste_witness :
    (runReads (onpaste busyWorld examplePaste) [(1, pngRead), (0, pngRead)]).document
        ≠ (runReads busyWorld [(1, pngRead), (0, pngRead)]).document ∧
    pendingReads busyWorld.readers = 1 ∧
    (∃ item ∈ examplePaste.clipboardData.items, startsWithImage item.type) ∧
    countList Label.isImg
        (runReads (onpaste busyWorld examplePaste) [(1, pngRead), (0, pngRead)]).document
      ≤ countList Label.isImg (runReads busyWorld [(1, pngRead), (0, pngRead)]).document + 1 :=
  have hdiff : (runReads (onpaste busyWorld examplePaste) [(1, pngRead), (0, pngRead)]).document
      ≠ (runReads busyWorld [(1, pngRead), (0, pngRead)]).document :=
    fun h => absurd (congrArg (countList Label.isImg) h) (by decide)
  ⟨hdiff, by decide,
   (at_most_one_image_per_paste busyWorld examplePaste
      [(1, pngRead), (0, pngRead)]).2.2.2.2.2.2 hdiff,
   (at_most_one_image_per_paste busyWorld examplePaste
      [(1, pngRead), (0, pngRead)]).2.2.2.2.1⟩

end Desegnacxo
